import Mathlib

/-!
Verification of the parameter-combination and template-expansion engine of
parallel_zip (parallel_zip.py) against its specification.

The embedding models Python strings as lists of characters (`Str`), Python
values appearing in parameter lists as `PyVal` (with `pyStr` modelling
Python's str() conversion), and Python dicts as insertion-ordered association
lists with the update semantics of dict assignment (`dictInsert`, `dictUnion`).

Python's `eval` of an arbitrary expression string is not translatable, so the
expression evaluator is an explicit oracle parameter
`oracle : Str → Option Str`: `some v` models an evaluation that succeeds and
str()-converts to `v`; `none` models an evaluation that raises (the source
swallows the exception with `try ... except Exception: pass`, which is why the
embedded functions are total).
-/

namespace PZ

/-- A Python string, modelled as its list of characters. -/
abbrev Str := List Char

/-- A Python value that can appear inside a parameter value list.  Only the
string representation matters downstream (everything is passed through
Python's str()). -/
inductive PyVal where
  | vStr (s : Str)
  | vInt (n : Int)
deriving DecidableEq, Repr

/-- Python's str() conversion, as used by zipper on every value. -/
def pyStr : PyVal → Str
  | .vStr s => s
  | .vInt n => (toString n).data

/-- The value of one named argument of zipper: either a scalar (a value for
which `isiter` in the source returns False — strings and numbers) or an
iterable sequence of values.  `isiter` treats Python strings as scalars. -/
inductive NamedVal where
  | scalar (v : PyVal)
  | seq (vs : List PyVal)
deriving DecidableEq, Repr

/-- Line 113 of the source: `list(values) if isiter(values) else [values]` —
normalization of one named value to a list. -/
def namedValList : NamedVal → List PyVal
  | .scalar v => [v]
  | .seq vs => vs

/-- A Python dict from parameter name to string value, modelled as an
insertion-ordered association list whose keys are unique by construction. -/
abbrev Dict := List (Str × Str)

/-- Python dict assignment `d[k] = v`: overwrite in place if the key exists
(keeping its position, as CPython dicts do), else append at the end. -/
def dictInsert (d : Dict) (k : Str) (v : Str) : Dict :=
  if k ∈ d.map Prod.fst then d.map (fun p => if p.1 = k then (k, v) else p)
  else d ++ [(k, v)]

/-- Python dict merge `d1 | d2` (and `dict(d1, **d2)`): a copy of `d1` updated
with every entry of `d2` in order; `d2` wins on key collision. -/
def dictUnion (d1 d2 : Dict) : Dict :=
  d2.foldl (fun acc p => dictInsert acc p.1 p.2) d1

/-- Python dict lookup `d[k]`, as an Option. -/
def dictFind (d : Dict) (k : Str) : Option Str :=
  (d.find? (fun p => p.1 = k)).map Prod.snd

/-- Build a dict from a list of (key, value) pairs by repeated assignment
(the semantics of a dict display / dict comprehension). -/
def pairsToDict (ps : List (Str × Str)) : Dict :=
  ps.foldl (fun d p => dictInsert d p.1 p.2) []

/-- Product of a list of naturals. -/
def listProd (l : List Nat) : Nat := l.foldr (fun a b => a * b) 1

/-! ### The Combination Generator (`zipper`, source lines 104-147) -/

/-- Errors raised by zipper: ValueError for incompatible lockstep lengths
(line 116), TypeError for a malformed cross argument (lines 137-142).  The
shape (TypeError) validation is not reached by any claim, so the model takes
the cross argument already in its validated normal form: an ordered list of
single-key groups. -/
inductive ZipError where
  | cardinality
  | shape
deriving DecidableEq, Repr

/-- `min` of the lengths of a nonempty family, the truncation length of
Python's zip(*vals); zip() of an empty family is empty. -/
def minLen : List (List PyVal) → Nat
  | [] => 0
  | [l] => l.length
  | l :: ls => Nat.min l.length (minLen ls)

/-- Python's `list(zip(*vals))`: tuple i collects element i of every list,
truncating at the shortest list. -/
def zipStar (ls : List (List PyVal)) : List (List PyVal) :=
  (List.range (minLen ls)).map (fun i => ls.map (fun l => l.getD i (PyVal.vStr [])))

/-- Line 118 of the source: `values * maxlen if len(values) == 1 and maxlen > 1
else values` — broadcast a singleton to the lockstep length. -/
def broadcast (maxlen : Nat) (p : Str × List PyVal) : Str × List PyVal :=
  if p.2.length = 1 ∧ 1 < maxlen then (p.1, (List.replicate maxlen p.2).flatten) else p

/-- Source line 113: `proc`, every named value normalized to a list. -/
def procOf (nv : List (Str × NamedVal)) : List (Str × List PyVal) :=
  nv.map (fun p => (p.1, namedValList p.2))

/-- Source line 114: `lengths`, the lengths greater than one. -/
def lengthsOf (nv : List (Str × NamedVal)) : List Nat :=
  ((procOf nv).filter (fun p => 1 < p.2.length)).map (fun p => p.2.length)

/-- Source line 117: `maxlen`, the maximum of all the lengths (the fold with
base 0 agrees with Python's max on the nonempty case in which it is used). -/
def maxlenOf (nv : List (Str × NamedVal)) : Nat :=
  ((procOf nv).map (fun p => p.2.length)).foldl Nat.max 0

/-- Source line 118: `proc` after singleton broadcasting. -/
def proc2Of (nv : List (Str × NamedVal)) : List (Str × List PyVal) :=
  (procOf nv).map (broadcast (maxlenOf nv))

/-- `process_named_vals` (source lines 111-121): normalize each named value to
a list, reject distinct lengths > 1 (ValueError, modelled by the dedup test
of `len(set(lengths.values())) > 1`), broadcast singletons to the maximum
length, and zip everything in lockstep. -/
def processNamedVals (nv : List (Str × NamedVal)) :
    Except ZipError (List Str × List (List PyVal)) :=
  if nv.isEmpty then .ok ([], [[]])
  else if 1 < (lengthsOf nv).dedup.length then .error .cardinality
  else .ok ((proc2Of nv).map Prod.fst, zipStar ((proc2Of nv).map Prod.snd))

/-- The items of one cross group (source line 129): a scalar value gives one
single entry, an iterable gives one entry per element; all values pass
through str(). -/
def crossItems (g : Str × NamedVal) : List (Str × Str) :=
  match g.2 with
  | .scalar v => [(g.1, pyStr v)]
  | .seq vs => vs.map (fun v => (g.1, pyStr v))

/-- `process_cross` (source lines 123-132): left fold over the declared
groups; each step replaces the accumulated mappings with their product with
the group's items (`dict(r, **ci)`).  `none` models cross=None. -/
def processCross : Option (List (Str × NamedVal)) → List Dict
  | none => [[]]
  | some gs =>
    gs.foldl
      (fun result g =>
        result.flatMap (fun r => (crossItems g).map (fun ci => dictInsert r ci.1 ci.2)))
      [[]]

/-- The lockstep dict of one zipped tuple (the dict comprehension of source
line 146): `{key: str(z[i]) for i, key in enumerate(keys)}`. -/
def mkDict (keys : List Str) (z : List PyVal) : Dict :=
  (keys.zip z).foldl (fun d kv => dictInsert d kv.1 (pyStr kv.2)) []

/-- `zipper` (source lines 104-147): lockstep combinations crossed with the
cross-product mappings; the lockstep dict is merged `| c` with the cross dict
(cross wins on collision).  Line 134 short-circuits the no-argument call. -/
def zipper (cross : Option (List (Str × NamedVal))) (namedVals : List (Str × NamedVal)) :
    Except ZipError (List Dict) :=
  if namedVals.isEmpty ∧ cross.isNone then .ok [[]]
  else
    match processNamedVals namedVals with
    | .error e => .error e
    | .ok (keys, zipped) =>
      let crossed := processCross cross
      .ok (zipped.flatMap (fun z => crossed.map (fun c => dictUnion (mkDict keys z) c)))

/-! ### The Template Expander (`eval_zippered`, source lines 166-209) -/

/-- Fuel-indexed core of Python's `str.replace`: replace every non-overlapping
occurrence of `pat`, scanning left to right.  The fuel only serves structural
recursion; `listReplace` supplies enough of it. -/
def replaceAux (pat rep : Str) : Nat → Str → Str
  | _, [] => []
  | 0, s => s
  | n + 1, c :: rest =>
    if pat ≠ [] ∧ pat.isPrefixOf (c :: rest) then
      rep ++ replaceAux pat rep n ((c :: rest).drop pat.length)
    else c :: replaceAux pat rep n rest

/-- Python's `s.replace(pat, rep)` (for the nonempty patterns the source
uses): all non-overlapping occurrences, left to right, the replacement text
never rescanned. -/
def listReplace (s pat rep : Str) : Str := replaceAux pat rep s.length s

/-- Fuel-indexed scan for `re.findall(r"\{([^{}]+)\}", s)`: at each `{`, the
greedy run of non-brace characters must be nonempty and followed by `}`;
scanning resumes after a match, or one character later on failure. -/
def findSpansAux : Nat → Str → List Str
  | _, [] => []
  | 0, _ => []
  | n + 1, c :: rest =>
    if c = '{' then
      let run := rest.takeWhile (fun d => !(d == '{' || d == '}'))
      match rest.drop run.length with
      | '}' :: tail => if run.isEmpty then findSpansAux n rest else run :: findSpansAux n tail
      | _ => findSpansAux n rest
    else findSpansAux n rest

/-- The matches of `re.findall(r"\{([^{}]+)\}", protected)` (source line 178). -/
def findSpans (s : Str) : List Str := findSpansAux s.length s

/-- The sentinel "___LEFTBRACE___" of source line 176. -/
def sentL : Str := ['_', '_', '_', 'L', 'E', 'F', 'T', 'B', 'R', 'A', 'C', 'E', '_', '_', '_']

/-- The sentinel "___RIGHTBRACE___" of source line 176. -/
def sentR : Str := ['_', '_', '_', 'R', 'I', 'G', 'H', 'T', 'B', 'R', 'A', 'C', 'E', '_', '_', '_']

/-- Step 1 of eval_zippered (source lines 171-172): for each key in
insertion order, replace every `{key}` with its value. -/
def substKeys (command : Str) (valDict : Dict) : Str :=
  valDict.foldl (fun acc kv => listReplace acc ('{' :: (kv.1 ++ ['}'])) kv.2) command

/-- Step 2 (source line 176): hide doubled braces behind sentinel tokens. -/
def protectBraces (s : Str) : Str :=
  listReplace (listReplace s ['{', '{'] sentL) ['}', '}'] sentR

/-- Step 4 (source line 208): restore literal braces from the sentinels. -/
def unprotectBraces (s : Str) : Str :=
  listReplace (listReplace s sentL ['{']) sentR ['}']

/-- Step 3, the evaluation loop (source lines 200-205): for each matched
expression, a successful evaluation replaces every `{expr}` occurrence with
the result; a failing one (`oracle e = none`, the `except: pass` branch)
leaves the text untouched. -/
def evalLoop (oracle : Str → Option Str) : List Str → Str → Str
  | [], s => s
  | e :: es, s =>
    match oracle e with
    | some v => evalLoop oracle es (listReplace s ('{' :: (e ++ ['}'])) v)
    | none => evalLoop oracle es s

/-- The whitespace set of Python's str.strip(). -/
def isPyWS (c : Char) : Bool :=
  c == ' ' || c == '\t' || c == '\n' || c == '\x0d' || c == '\x0b' || c == '\x0c'

/-- Python's `s.strip()`. -/
def pyStrip (s : Str) : Str :=
  ((s.dropWhile isPyWS).reverse.dropWhile isPyWS).reverse

/-- `eval_zippered` (source lines 166-209): substitute known keys, protect
doubled braces, evaluate the remaining `{...}` spans through the oracle,
restore literal braces, and strip.  Total, because the source catches every
evaluation exception. -/
def evalZippered (oracle : Str → Option Str) (command : Str) (valDict : Dict) : Str :=
  let result := substKeys command valDict
  let prot := protectBraces result
  let evaled := evalLoop oracle (findSpans prot) prot
  pyStrip (unprotectBraces evaled)

/-- `parse_command` (source lines 149-219): one expanded command per
combination produced by zipper; a zipper exception propagates. -/
def parseCommand (oracle : Str → Option Str) (command : Str)
    (cross : Option (List (Str × NamedVal))) (namedVals : List (Str × NamedVal)) :
    Except ZipError (List Str) :=
  match zipper cross namedVals with
  | .error e => .error e
  | .ok zv => .ok (zv.map (fun vd => evalZippered oracle command vd))

/-! ### The Command Normalizer (`execute_command`, source lines 222-261) -/

/-- Python's str.splitlines() restricted to '\n' separators (the only line
break the templates of this code base contain): no trailing empty line. -/
def splitlines (s : Str) : List Str :=
  if s.getLast? = some '\n' then (List.splitOn '\n' s).dropLast
  else if s.isEmpty then [] else List.splitOn '\n' s

/-- Source line 233: strip every line, keep the non-blank ones. -/
def normalizeLines (cmd : Str) : List Str :=
  ((splitlines cmd).map pyStrip).filter (fun l => l ≠ [])

/-- `line.startswith('&&')`. -/
def startsAmp (line : Str) : Bool := ['&', '&'].isPrefixOf line

/-- `line.endswith('&&')`. -/
def endsAmp (line : Str) : Bool := ['&', '&'].isSuffixOf line

/-- One iteration of the joining loop (source lines 238-242): extend the last
accumulated command with ` && line` unless it already ends with `&&` or the
line starts with `&&`, in which case the line opens a new element. -/
def joinStep (joined : List Str) (line : Str) : List Str :=
  if joined ≠ [] ∧ ¬ endsAmp (joined.getLastD []) = true ∧ ¬ startsAmp line = true then
    joined.dropLast ++ [joined.getLastD [] ++ (' ' :: '&' :: '&' :: ' ' :: line)]
  else joined ++ [line]

/-- Python's `' '.join`. -/
def spaceJoin : List Str → Str
  | [] => []
  | [l] => l
  | l :: ls => l ++ ' ' :: spaceJoin ls

/-- Source lines 237-244: run the joining loop, then `' '.join`. -/
def joinLines (lines : List Str) : Str := spaceJoin (lines.foldl joinStep [])

/-- The normalization of one expanded command (the body of the loop at source
lines 232-245); `none` means the all-blank command is dropped (line 235). -/
def normalizeCommand (cmd : Str) : Option Str :=
  let lines := normalizeLines cmd
  if lines = [] then none else some (joinLines lines)

/-- `processed_commands` of execute_command (source lines 231-245). -/
def processCommands (cmds : List Str) : List Str :=
  cmds.foldl
    (fun acc cmd =>
      let lines := normalizeLines cmd
      if lines = [] then acc else acc ++ [joinLines lines])
    []

/-! ### The Execution Orchestrator (`parallel_zip`, source lines 263-451) -/

/-- The aggregate result of the external batch runner (subprocess.run). -/
structure ProcResult where
  returncode : Int
  stdout : Str
  stderr : Str
deriving DecidableEq, Repr

/-- The error report printed on a strict failure (source lines 440-442):
the return code, plus the captured stderr when it is non-empty. -/
structure Report where
  rc : Int
  details : Option Str
deriving DecidableEq, Repr

/-- The result value of a non-dry-run parallel_zip call. -/
inductive Output where
  | text (s : Str)
  | lines (ls : List Str)
deriving DecidableEq, Repr

/-- Result interpretation of parallel_zip after the runner returns (source
lines 438-451): first component is the error report printed (if any), second
is the returned value (`none` models Python's None). -/
def interpretProc (strict verbose lns : Bool) (proc : ProcResult) : Option Report × Option Output :=
  if proc.returncode ≠ 0 ∧ strict then
    (some ⟨proc.returncode, if proc.stderr ≠ [] then some proc.stderr else none⟩, none)
  else
    (none,
      if verbose then some (if lns then .lines (splitlines proc.stdout) else .text proc.stdout)
      else none)

/-- The command batch that parallel_zip submits to the runner (the composition
at source lines 427-428): a zipper exception propagates, and the runner is
invoked only on the `.ok` branch, so an `.error` result means no command was
built and no process spawned. -/
def parallelZipCommands (oracle : Str → Option Str) (command : Str)
    (cross : Option (List (Str × NamedVal))) (namedVals : List (Str × NamedVal)) :
    Except ZipError (List Str) :=
  match parseCommand oracle command cross namedVals with
  | .error e => .error e
  | .ok cmds => .ok (processCommands cmds)

/-- The _JAVA_OPTIONS handling of parallel_zip (source lines 423-434), with
the environment variable's value threaded explicitly (`none` = unset).
`os.environ.get('_JAVA_OPTIONS', '')` conflates an absent variable with an
empty one; there is no try/finally, so when the bracketed body (command
generation and execution) raises, the function returns with the override
still in place.  The body is the zipper call, whose exception is the one a
bad parameter set produces. -/
def parallelZipEnv (javaMemory : Option Str) (cross : Option (List (Str × NamedVal)))
    (namedVals : List (Str × NamedVal)) (env : Option Str) : Option Str :=
  let jm := javaMemory.getD []
  if jm = [] then env
  else
    let oldSetting := env.getD []
    let env1 : Option Str := some (('-' :: 'X' :: 'm' :: 'x' :: []) ++ jm)
    match zipper cross namedVals with
    | .error _ => env1
    | .ok _ => if oldSetting ≠ [] then some oldSetting else none

/-! ### Spec-side definitions (for refinement comparison)

These two definitions follow the specification's words, not the source; the
claims compare the source-derived functions against them. -/

/-- Modelled from the spec (section 3, Combination Sequence; claim C4): the
cross-product choice sequences enumerated by nested loops in declaration
order, the last-declared group varying fastest.  Each element picks one item
from every group, in declaration order. -/
def choiceSeqs : List (Str × NamedVal) → List (List (Str × Str))
  | [] => [[]]
  | g :: gs => (crossItems g).flatMap (fun ci => (choiceSeqs gs).map (fun rest => ci :: rest))

/-- Modelled from the spec (section 4.3; claim C6): the connective placed
after line `prev` and before line `l` is a plain space when `prev` already
ends with `&&` or `l` already starts with `&&`, and ` && ` otherwise. -/
def specTail (prev : Str) : List Str → Str
  | [] => []
  | l :: ls =>
    (if endsAmp prev || startsAmp l then ' ' :: l else ' ' :: '&' :: '&' :: ' ' :: l) ++
      specTail l ls

/-- Modelled from the spec (section 4.3; claim C6): the normalized join of the
surviving lines, with no duplicated connective. -/
def specJoin : List Str → Str
  | [] => []
  | l :: ls => l ++ specTail l ls

/-! ### Key-list bookkeeping used by the combination-generator lemmas -/

/-- The effect of one dict assignment on the key list: an existing key keeps
its position, a new key is appended. -/
def keyIns (ks : List Str) (k : Str) : List Str := if k ∈ ks then ks else ks ++ [k]

/-- The effect of a sequence of dict assignments on the key list. -/
def keyFold (ks : List Str) (l : List Str) : List Str := l.foldl keyIns ks

/-! ### Decidable occurrence predicates for the string lemmas -/

/-- `pat` occurs in `s` at position `i`. -/
abbrev occAt (pat s : Str) (i : Nat) : Prop := pat.isPrefixOf (s.drop i) = true

/-- `s` contains no brace character. -/
abbrev braceFree (s : Str) : Prop := '{' ∉ s ∧ '}' ∉ s

/-- The doubled-brace escape sequence `{{x}}` as template text. -/
def dblBrace (x : Str) : Str := '{' :: '{' :: (x ++ ['}', '}'])

/-- No occurrence of `pat` that starts inside `a` crosses the boundary into
`rest`: the left-to-right scan of `a ++ rest` treats the parts independently. -/
abbrev noCrossAt (pat a rest : Str) : Prop :=
  ∀ i, i < a.length → occAt pat (a ++ rest) i → i + pat.length ≤ a.length

/-- The text of segment `s` of template `t` after the substitution, protection
and evaluation stages of eval_zippered (the evaluation loop runs over the span
list of the full template `t`, with the same oracle). -/
def evalStage (oracle : Str → Option Str) (vd : Dict) (t s : Str) : Str :=
  evalLoop oracle (findSpans (protectBraces (substKeys t vd))) (protectBraces (substKeys s vd))

/-! ## Lemmas and claim theorems -/

/-- A list with two distinct members has more than one distinct element. -/
theorem one_lt_dedup_length {l : List Nat} {a b : Nat} (ha : a ∈ l) (hb : b ∈ l)
    (hab : a ≠ b) : 1 < l.dedup.length := by
  have ha' : a ∈ l.dedup := List.mem_dedup.mpr ha
  have hb' : b ∈ l.dedup := List.mem_dedup.mpr hb
  match h : l.dedup with
  | [] => rw [h] at ha'; exact absurd ha' (List.not_mem_nil a)
  | [x] =>
    rw [h] at ha' hb'
    simp only [List.mem_singleton] at ha' hb'
    exact absurd (ha'.trans hb'.symm) hab
  | x :: y :: t => simp [List.length_cons]

/-- A list whose members are pairwise equal has at most one distinct element. -/
theorem dedup_length_le_one {l : List Nat} (h : ∀ a ∈ l, ∀ b ∈ l, a = b) :
    l.dedup.length ≤ 1 := by
  match hd : l.dedup with
  | [] => simp
  | [x] => simp
  | x :: y :: t =>
    have hx : x ∈ l.dedup := by rw [hd]; simp
    have hy : y ∈ l.dedup := by rw [hd]; simp
    have hnd : l.dedup.Nodup := l.nodup_dedup
    rw [hd] at hnd
    have : x = y := h x (List.mem_dedup.mp hx) y (List.mem_dedup.mp hy)
    simp [this] at hnd

/-- The two lockstep lengths of a mismatched pair both appear in `lengthsOf`. -/
theorem mem_lengthsOf {nv : List (Str × NamedVal)} {p : Str × NamedVal} (hp : p ∈ nv)
    (hl : 1 < (namedValList p.2).length) : (namedValList p.2).length ∈ lengthsOf nv := by
  have hmem : (p.1, namedValList p.2) ∈ procOf nv := by
    simp only [procOf, List.mem_map]
    exact ⟨p, hp, rfl⟩
  simp only [lengthsOf, List.mem_map, List.mem_filter]
  exact ⟨(p.1, namedValList p.2), ⟨hmem, by simpa using hl⟩, rfl⟩

/-- Claim C5: two named value-lists with distinct lengths both greater than 1
make `zipper` fail with the cardinality ValueError, and `parallel_zip`
propagates that failure before any command string is produced and before the
runner is invoked (an `.error` result of `parallelZipCommands` means the
composition at source lines 427-428 raised inside `parse_command`). -/
theorem c5_cardinality_error (oracle : Str → Option Str) (command : Str)
    (cross : Option (List (Str × NamedVal))) (nv : List (Str × NamedVal))
    (p q : Str × NamedVal) (hp : p ∈ nv) (hq : q ∈ nv)
    (hlp : 1 < (namedValList p.2).length) (hlq : 1 < (namedValList q.2).length)
    (hne : (namedValList p.2).length ≠ (namedValList q.2).length) :
    zipper cross nv = .error .cardinality ∧
      parallelZipCommands oracle command cross nv = .error .cardinality := by
  have hne' : nv ≠ [] := by intro h; rw [h] at hp; exact absurd hp (List.not_mem_nil p)
  have hcard : processNamedVals nv = .error .cardinality := by
    have h1 := mem_lengthsOf hp hlp
    have h2 := mem_lengthsOf hq hlq
    have := one_lt_dedup_length h1 h2 hne
    simp [processNamedVals, hne', this]
  have hz : zipper cross nv = .error .cardinality := by
    simp [zipper, hne', hcard]
  refine ⟨hz, ?_⟩
  simp [parallelZipCommands, parseCommand, hz]

/-- Witness for C5 at a concrete mismatched call. -/
theorem c5_witness :
    zipper none [("a".data, .seq [.vInt 1, .vInt 2]), ("b".data, .seq [.vInt 1, .vInt 2, .vInt 3])]
        = .error .cardinality ∧
      parallelZipCommands (fun _ => none) "run {a} {b}".data none
        [("a".data, .seq [.vInt 1, .vInt 2]), ("b".data, .seq [.vInt 1, .vInt 2, .vInt 3])]
        = .error .cardinality :=
  c5_cardinality_error (fun _ => none) "run {a} {b}".data none
    [("a".data, .seq [.vInt 1, .vInt 2]), ("b".data, .seq [.vInt 1, .vInt 2, .vInt 3])]
    ("a".data, .seq [.vInt 1, .vInt 2]) ("b".data, .seq [.vInt 1, .vInt 2, .vInt 3])
    (by decide) (by decide) (by decide) (by decide) (by decide)

/-- Claim C7: when the runner's aggregate exit code is non-zero, strict mode
yields the error report (return code, plus stderr when non-empty) and no
result value, while lenient mode ignores the code and returns the normal
result: the captured stdout (as text, or split into lines) when verbose,
and nothing otherwise. -/
theorem c7_strict_vs_lenient (proc : ProcResult) (verbose lns : Bool)
    (h : proc.returncode ≠ 0) :
    interpretProc true verbose lns proc =
        (some ⟨proc.returncode, if proc.stderr ≠ [] then some proc.stderr else none⟩, none) ∧
      interpretProc false verbose lns proc =
        (none,
          if verbose then
            some (if lns then .lines (splitlines proc.stdout) else .text proc.stdout)
          else none) := by
  constructor
  · simp [interpretProc, h]
  · simp [interpretProc]

/-- Witness for C7 at a concrete failing runner result. -/
theorem c7_witness :
    interpretProc true true false ⟨6, "out".data, "err".data⟩ =
        (some ⟨6, if "err".data ≠ [] then some "err".data else none⟩, none) ∧
      interpretProc false true false ⟨6, "out".data, "err".data⟩ =
        (none,
          if true then
            some (if false then .lines (splitlines "out".data) else .text "out".data)
          else none) :=
  c7_strict_vs_lenient ⟨6, "out".data, "err".data⟩ true false (by decide)

/-- Counterexample to claim C2 as stated: with `java_memory='4g'`, a
cardinality error raised during combination generation escapes before the
restore code at source lines 430-434 runs, so _JAVA_OPTIONS (previously
absent, final value shown) is not removed on this error exit. -/
theorem c2_counterexample :
    parallelZipEnv (some "4g".data) none
        [("a".data, .seq [.vInt 1, .vInt 2]), ("b".data, .seq [.vInt 1, .vInt 2, .vInt 3])]
        none = some "-Xmx4g".data ∧
      parallelZipEnv (some "4g".data) none
        [("a".data, .seq [.vInt 1, .vInt 2]), ("b".data, .seq [.vInt 1, .vInt 2, .vInt 3])]
        none ≠ none :=
  ⟨rfl, by decide⟩

/-- Claim C2, amended: _JAVA_OPTIONS is restored to its prior value (or
removed if previously absent) on every non-raising exit of the call, provided
the prior value was absent or non-empty; when combination generation raises,
the override remains in place (no try/finally in the source), and a
present-but-empty prior value is removed rather than restored (the source
reads it with `os.environ.get('_JAVA_OPTIONS', '')`). -/
theorem c2_restored_on_success (jm : Str) (cross : Option (List (Str × NamedVal)))
    (nv : List (Str × NamedVal)) (env : Option Str) (hjm : jm ≠ [])
    (hok : (zipper cross nv).isOk = true)
    (henv : env = none ∨ ∃ s, env = some s ∧ s ≠ []) :
    parallelZipEnv (some jm) cross nv env = env := by
  obtain ⟨v, hv⟩ : ∃ v, zipper cross nv = .ok v := by
    match h : zipper cross nv with
    | .ok v => exact ⟨v, rfl⟩
    | .error e => rw [h] at hok; simp [Except.isOk, Except.toBool] at hok
  rcases henv with henv | ⟨s, hs, hsne⟩
  · subst henv
    simp [parallelZipEnv, hjm, hv]
  · subst hs
    simp [parallelZipEnv, hjm, hv, hsne]

/-- Witness for the amended C2 on a successful call with a prior value set. -/
theorem c2_witness :
    parallelZipEnv (some "4g".data) none [("a".data, .scalar (.vInt 1))]
        (some "-Xmx2g".data) = some "-Xmx2g".data :=
  c2_restored_on_success "4g".data none [("a".data, .scalar (.vInt 1))]
    (some "-Xmx2g".data) (by decide) (by decide)
    (Or.inr ⟨"-Xmx2g".data, rfl, by decide⟩)

/-- `minLen` is at most the length of any member. -/
theorem minLen_le {ls : List (List PyVal)} {l : List PyVal} (h : l ∈ ls) :
    minLen ls ≤ l.length := by
  induction ls with
  | nil => exact absurd h (List.not_mem_nil l)
  | cons x xs ih =>
    match xs with
    | [] =>
      simp only [List.mem_singleton] at h
      simp [minLen, h]
    | y :: ys =>
      rcases List.mem_cons.mp h with h | h
      · subst h; simp [minLen]
      · have hle := ih h
        calc minLen (x :: y :: ys) = Nat.min x.length (minLen (y :: ys)) := rfl
          _ ≤ minLen (y :: ys) := Nat.min_le_right _ _
          _ ≤ l.length := hle

/-- Counterexample to claim C10 as stated: an empty named value-list does not
always give the empty result — the remaining lists still undergo the
cardinality check, and here they conflict, so zipper raises ValueError
instead of returning the empty list. -/
theorem c10_counterexample :
    zipper none
        [("a".data, .seq []), ("b".data, .seq [.vInt 1, .vInt 2]),
          ("c".data, .seq [.vInt 1, .vInt 2, .vInt 3])] =
      .error .cardinality := rfl

/-- Claim C10, amended: if some named value is an empty sequence and the
lists of length greater than one all agree (so the cardinality check
passes), zipper returns the empty combination list without raising — the
lockstep zip truncates to the shortest list — and parallel_zip consequently
produces zero commands. -/
theorem c10_empty_named_val (oracle : Str → Option Str) (command : Str)
    (cross : Option (List (Str × NamedVal))) (nv : List (Str × NamedVal))
    (p : Str × NamedVal) (hp : p ∈ nv) (hemp : namedValList p.2 = [])
    (hcard : ∀ p1 ∈ nv, ∀ p2 ∈ nv, 1 < (namedValList p1.2).length →
      1 < (namedValList p2.2).length →
      (namedValList p1.2).length = (namedValList p2.2).length) :
    zipper cross nv = .ok [] ∧ parallelZipCommands oracle command cross nv = .ok [] := by
  have hne' : nv ≠ [] := by intro h; rw [h] at hp; exact absurd hp (List.not_mem_nil p)
  have hdedup : ¬ 1 < (lengthsOf nv).dedup.length := by
    have hall : ∀ a ∈ lengthsOf nv, ∀ b ∈ lengthsOf nv, a = b := by
      intro a ha b hb
      simp only [lengthsOf, List.mem_map, List.mem_filter, procOf] at ha hb
      obtain ⟨pa, ⟨⟨qa, hqa, hqa'⟩, hla⟩, rfl⟩ := ha
      obtain ⟨pb, ⟨⟨qb, hqb, hqb'⟩, hlb⟩, rfl⟩ := hb
      subst hqa'; subst hqb'
      simp only [decide_eq_true_eq] at hla hlb
      exact hcard qa hqa qb hqb hla hlb
    have := dedup_length_le_one hall
    omega
  have hmem0 : ([] : List PyVal) ∈ (proc2Of nv).map Prod.snd := by
    have hmem : (p.1, namedValList p.2) ∈ procOf nv := by
      simp only [procOf, List.mem_map]
      exact ⟨p, hp, rfl⟩
    rw [hemp] at hmem
    have hb : broadcast (maxlenOf nv) (p.1, []) = (p.1, []) := by
      simp [broadcast]
    have : (p.1, ([] : List PyVal)) ∈ proc2Of nv := by
      simp only [proc2Of, List.mem_map]
      exact ⟨(p.1, []), hmem, hb⟩
    simpa using List.mem_map_of_mem Prod.snd this
  have hmin : minLen ((proc2Of nv).map Prod.snd) = 0 :=
    Nat.le_zero.mp (by simpa using minLen_le hmem0)
  have hzs : zipStar ((proc2Of nv).map Prod.snd) = [] := by
    simp [zipStar, hmin]
  have hpnv : processNamedVals nv = .ok ((proc2Of nv).map Prod.fst, []) := by
    simp [processNamedVals, hne', hdedup, hzs]
  have hz : zipper cross nv = .ok [] := by
    simp [zipper, hne', hpnv]
  refine ⟨hz, ?_⟩
  simp [parallelZipCommands, parseCommand, hz, processCommands]

/-- Witness for the amended C10: one empty list alongside a compatible pair. -/
theorem c10_witness :
    zipper none [("a".data, .seq []), ("b".data, .seq [.vInt 1, .vInt 2])] = .ok [] ∧
      parallelZipCommands (fun _ => none) "run {a}".data none
        [("a".data, .seq []), ("b".data, .seq [.vInt 1, .vInt 2])] = .ok [] :=
  c10_empty_named_val (fun _ => none) "run {a}".data none
    [("a".data, .seq []), ("b".data, .seq [.vInt 1, .vInt 2])]
    ("a".data, .seq []) (by decide) (by decide) (by decide)

/-! ### Key-list lemmas for the dict model -/

/-- One assignment transforms the key list through `keyIns`. -/
theorem keys_dictInsert (d : Dict) (k : Str) (v : Str) :
    (dictInsert d k v).map Prod.fst = keyIns (d.map Prod.fst) k := by
  unfold dictInsert keyIns
  split
  · rw [List.map_map]
    apply List.map_congr_left
    intro p _
    by_cases hp : p.1 = k
    · simp [hp]
    · simp [hp]
  · simp

/-- A sequence of assignments transforms the key list through `keyFold`. -/
theorem keys_dictUnion (c : Dict) : ∀ d : Dict,
    (dictUnion d c).map Prod.fst = keyFold (d.map Prod.fst) (c.map Prod.fst) := by
  induction c with
  | nil => intro d; rfl
  | cons p c ih =>
    intro d
    have h1 : dictUnion d (p :: c) = dictUnion (dictInsert d p.1 p.2) c := rfl
    rw [h1, ih, keys_dictInsert]
    rfl

/-- `mkDict` has the key list of its (zipped) key sequence. -/
theorem keys_mkDict (keys : List Str) (z : List PyVal) (h : keys.length ≤ z.length) :
    (mkDict keys z).map Prod.fst = keyFold [] keys := by
  have hz : (keys.zip z).map Prod.fst = keys := List.map_fst_zip keys z h
  suffices hgen : ∀ (ps : List (Str × PyVal)) (d : Dict),
      ((ps.foldl (fun d kv => dictInsert d kv.1 (pyStr kv.2)) d).map Prod.fst) =
        keyFold (d.map Prod.fst) (ps.map Prod.fst) by
    have := hgen (keys.zip z) []
    rw [hz] at this
    exact this
  intro ps
  induction ps with
  | nil => intro d; rfl
  | cons kv ps ih =>
    intro d
    have h1 : ((kv :: ps).foldl (fun d kv => dictInsert d kv.1 (pyStr kv.2)) d) =
        (ps.foldl (fun d kv => dictInsert d kv.1 (pyStr kv.2)) (dictInsert d kv.1 (pyStr kv.2))) := rfl
    rw [h1, ih, keys_dictInsert]
    rfl

/-- Membership in `keyIns`. -/
theorem mem_keyIns {ks : List Str} {k k' : Str} : k' ∈ keyIns ks k ↔ k' ∈ ks ∨ k' = k := by
  unfold keyIns
  split
  · rename_i h
    constructor
    · exact Or.inl
    · rintro (h' | rfl)
      · exact h'
      · exact h
  · simp [List.mem_append]

/-- Membership in `keyFold`. -/
theorem mem_keyFold {l : List Str} : ∀ {ks : List Str} {k' : Str},
    k' ∈ keyFold ks l ↔ k' ∈ ks ∨ k' ∈ l := by
  induction l with
  | nil => intro ks k'; simp [keyFold]
  | cons x l ih =>
    intro ks k'
    have h1 : keyFold ks (x :: l) = keyFold (keyIns ks x) l := rfl
    rw [h1, ih]
    rw [mem_keyIns]
    simp [List.mem_cons]
    tauto

/-- `keyIns` preserves key-list uniqueness. -/
theorem nodup_keyIns {ks : List Str} {k : Str} (h : ks.Nodup) : (keyIns ks k).Nodup := by
  unfold keyIns
  split
  · exact h
  · rename_i hnm
    simp [List.nodup_append, h, hnm]

/-- `keyFold` preserves key-list uniqueness. -/
theorem nodup_keyFold {l : List Str} : ∀ {ks : List Str}, ks.Nodup → (keyFold ks l).Nodup := by
  induction l with
  | nil => intro ks h; exact h
  | cons x l ih =>
    intro ks h
    exact ih (nodup_keyIns h)

/-! ### Lookup lemmas for the dict model -/

/-- Key membership over a cons cell. -/
theorem mem_keys_cons {p : Str × Str} {d : Dict} {k : Str} :
    k ∈ (p :: d).map Prod.fst ↔ k = p.1 ∨ k ∈ d.map Prod.fst := by
  rw [List.map_cons, List.mem_cons]

/-- Lookup at a matching head. -/
theorem dictFind_cons_self {p : Str × Str} {d : Dict} {k : Str} (h : p.1 = k) :
    dictFind (p :: d) k = some p.2 := by
  unfold dictFind
  rw [List.find?_cons_of_pos _ (by simp [h])]
  rfl

/-- Lookup skips a non-matching head. -/
theorem dictFind_cons_ne {p : Str × Str} {d : Dict} {k : Str} (h : ¬ p.1 = k) :
    dictFind (p :: d) k = dictFind d k := by
  unfold dictFind
  rw [List.find?_cons_of_neg _ (by simp [h])]

/-- Overwriting key `k` in place does not disturb other lookups. -/
theorem find_map_overwrite {k k' v : Str} (hne : k' ≠ k) : ∀ d : Dict,
    dictFind (d.map (fun q => if q.1 = k then (k, v) else q)) k' = dictFind d k' := by
  intro d
  induction d with
  | nil => rfl
  | cons p d ih =>
    rw [List.map_cons]
    by_cases hp : p.1 = k
    · rw [if_pos hp, dictFind_cons_ne (fun hh => hne hh.symm),
        dictFind_cons_ne (by rw [hp]; exact fun hh => hne hh.symm), ih]
    · rw [if_neg hp]
      by_cases hp' : p.1 = k'
      · rw [dictFind_cons_self hp', dictFind_cons_self hp']
      · rw [dictFind_cons_ne hp', dictFind_cons_ne hp', ih]

/-- Appending an entry for key `k` does not disturb other lookups. -/
theorem find_append_single_ne {k k' v : Str} (hne : k' ≠ k) : ∀ d : Dict,
    dictFind (d ++ [(k, v)]) k' = dictFind d k' := by
  intro d
  induction d with
  | nil =>
    rw [List.nil_append, dictFind_cons_ne (fun hh => hne hh.symm)]
  | cons p d ih =>
    rw [List.cons_append]
    by_cases hp' : p.1 = k'
    · rw [dictFind_cons_self hp', dictFind_cons_self hp']
    · rw [dictFind_cons_ne hp', dictFind_cons_ne hp', ih]

/-- Inserting `k` makes `k` look up to the new value. -/
theorem find_dictInsert_self (k v : Str) : ∀ d : Dict,
    dictFind (dictInsert d k v) k = some v := by
  intro d
  induction d with
  | nil =>
    have h : dictInsert ([] : Dict) k v = [(k, v)] := by simp [dictInsert]
    rw [h, dictFind_cons_self rfl]
  | cons p d ih =>
    by_cases hp : p.1 = k
    · have hm : k ∈ (p :: d).map Prod.fst := mem_keys_cons.mpr (Or.inl hp.symm)
      have h1 : dictInsert (p :: d) k v =
          (k, v) :: d.map (fun q => if q.1 = k then (k, v) else q) := by
        rw [dictInsert, if_pos hm, List.map_cons, if_pos hp]
      rw [h1, dictFind_cons_self rfl]
    · by_cases hm' : k ∈ d.map Prod.fst
      · have hm : k ∈ (p :: d).map Prod.fst := mem_keys_cons.mpr (Or.inr hm')
        have h1 : dictInsert (p :: d) k v =
            p :: d.map (fun q => if q.1 = k then (k, v) else q) := by
          rw [dictInsert, if_pos hm, List.map_cons, if_neg hp]
        have h2 : dictInsert d k v = d.map (fun q => if q.1 = k then (k, v) else q) := by
          rw [dictInsert, if_pos hm']
        rw [h1, dictFind_cons_ne hp, ← h2]
        exact ih
      · have hm : k ∉ (p :: d).map Prod.fst := by
          intro h
          rcases mem_keys_cons.mp h with h | h
          · exact hp h.symm
          · exact hm' h
        have h1 : dictInsert (p :: d) k v = p :: (d ++ [(k, v)]) := by
          rw [dictInsert, if_neg hm]
          rfl
        have h2 : dictInsert d k v = d ++ [(k, v)] := by
          rw [dictInsert, if_neg hm']
        rw [h1, dictFind_cons_ne hp, ← h2]
        exact ih

/-- Inserting `k` leaves the lookup of any other key unchanged. -/
theorem find_dictInsert_ne {k k' : Str} (hne : k' ≠ k) (v : Str) (d : Dict) :
    dictFind (dictInsert d k v) k' = dictFind d k' := by
  unfold dictInsert
  split
  · exact find_map_overwrite hne d
  · exact find_append_single_ne hne d

/-- A key is in the key list exactly when its lookup succeeds. -/
theorem find_isSome_iff_mem {k : Str} : ∀ {d : Dict},
    (dictFind d k).isSome = true ↔ k ∈ d.map Prod.fst := by
  intro d
  induction d with
  | nil => simp [dictFind]
  | cons p d ih =>
    by_cases hp : p.1 = k
    · rw [dictFind_cons_self hp]
      simp [mem_keys_cons, hp]
    · rw [dictFind_cons_ne hp, ih, mem_keys_cons]
      constructor
      · exact Or.inr
      · rintro (h | h)
        · exact absurd h.symm hp
        · exact h

/-- Merging `c` does not change lookups of keys absent from `c`. -/
theorem find_dictUnion_not_mem {c : Dict} {k : Str} (hk : k ∉ c.map Prod.fst) :
    ∀ d : Dict, dictFind (dictUnion d c) k = dictFind d k := by
  induction c with
  | nil => intro d; rfl
  | cons p c ih =>
    intro d
    have h1 : dictUnion d (p :: c) = dictUnion (dictInsert d p.1 p.2) c := rfl
    have hk' : k ∉ c.map Prod.fst := fun h => hk (mem_keys_cons.mpr (Or.inr h))
    have hkp : k ≠ p.1 := fun h => hk (mem_keys_cons.mpr (Or.inl h))
    rw [h1, ih hk', find_dictInsert_ne hkp]

/-- Last-write-wins: a key present in the merged-in dict `c` (with unique
keys) looks up to its value in `c`, whatever `d` held before. -/
theorem find_dictUnion_of_mem {c : Dict} {k : Str} (hnd : (c.map Prod.fst).Nodup)
    (hk : k ∈ c.map Prod.fst) : ∀ d : Dict, dictFind (dictUnion d c) k = dictFind c k := by
  induction c with
  | nil => intro d; exact absurd hk (by simp)
  | cons p c ih =>
    intro d
    rw [List.map_cons, List.nodup_cons] at hnd
    have h1 : dictUnion d (p :: c) = dictUnion (dictInsert d p.1 p.2) c := rfl
    by_cases hkc : k ∈ c.map Prod.fst
    · have hpk : ¬ p.1 = k := by
        intro h
        rw [h] at hnd
        exact hnd.1 hkc
      rw [h1, ih hnd.2 hkc, dictFind_cons_ne hpk]
    · have hpk : p.1 = k := by
        rcases mem_keys_cons.mp hk with h | h
        · exact h.symm
        · exact absurd h hkc
      rw [h1, find_dictUnion_not_mem hkc, hpk, find_dictInsert_self,
        dictFind_cons_self hpk]

/-! ### Structure of the cross-product fold -/

/-- Every item of a cross group carries that group's name. -/
theorem crossItems_key {g : Str × NamedVal} {ci : Str × Str} (h : ci ∈ crossItems g) :
    ci.1 = g.1 := by
  rcases g with ⟨name, val⟩
  cases val with
  | scalar v => simp [crossItems] at h; simp [h]
  | seq vs =>
    simp only [crossItems, List.mem_map] at h
    obtain ⟨v, _, rfl⟩ := h
    rfl

/-- Every choice sequence picks exactly the declared group names, in order. -/
theorem choiceSeqs_keys : ∀ {gs : List (Str × NamedVal)} {ch : List (Str × Str)},
    ch ∈ choiceSeqs gs → ch.map Prod.fst = gs.map Prod.fst := by
  intro gs
  induction gs with
  | nil => intro ch h; simp [choiceSeqs] at h; simp [h]
  | cons g gs ih =>
    intro ch h
    simp only [choiceSeqs, List.mem_flatMap, List.mem_map] at h
    obtain ⟨ci, hci, rest, hrest, rfl⟩ := h
    rw [List.map_cons, List.map_cons, crossItems_key hci, ih hrest]

/-- Length of a flatMap whose inner lists share one length. -/
theorem length_flatMap_const {α β : Type} {l : List α} {f : α → List β} {K : Nat}
    (h : ∀ a ∈ l, (f a).length = K) : (l.flatMap f).length = l.length * K := by
  induction l with
  | nil => simp
  | cons x l ih =>
    rw [List.flatMap_cons, List.length_append, h x (List.mem_cons_self x l),
      ih (fun a ha => h a (List.mem_cons_of_mem x ha)), List.length_cons]
    ring

/-- The number of choice sequences is the product of the group sizes. -/
theorem length_choiceSeqs : ∀ gs : List (Str × NamedVal),
    (choiceSeqs gs).length = listProd (gs.map (fun g => (crossItems g).length)) := by
  intro gs
  induction gs with
  | nil => rfl
  | cons g gs ih =>
    have h : (choiceSeqs (g :: gs)).length = (crossItems g).length * (choiceSeqs gs).length :=
      length_flatMap_const (fun ci _ => by rw [List.length_map])
    rw [h, ih]
    simp [listProd]

/-- The left fold of `process_cross` enumerates the accumulated mappings in
order, each extended by every choice sequence in `choiceSeqs` order: the
lockstep of the accumulator is outermost, the last group varies fastest. -/
theorem crossFoldl_eq : ∀ (gs : List (Str × NamedVal)) (acc : List Dict),
    gs.foldl
        (fun result g =>
          result.flatMap (fun r => (crossItems g).map (fun ci => dictInsert r ci.1 ci.2)))
        acc
      = acc.flatMap (fun r => (choiceSeqs gs).map (fun ch => dictUnion r ch)) := by
  intro gs
  induction gs with
  | nil =>
    intro acc
    simp [choiceSeqs, dictUnion]
  | cons g gs ih =>
    intro acc
    rw [List.foldl_cons, ih]
    simp only [choiceSeqs, List.flatMap_assoc, List.flatMap_map, List.map_flatMap,
      List.map_map]
    rfl

/-- `process_cross` on declared groups is the `choiceSeqs` enumeration, each
choice sequence condensed into a dict. -/
theorem processCross_some_eq (gs : List (Str × NamedVal)) :
    processCross (some gs) = (choiceSeqs gs).map (fun ch => pairsToDict ch) := by
  have h := crossFoldl_eq gs [[]]
  simp only [processCross, h]
  simp [dictUnion, pairsToDict]

/-- Uniform version covering cross=None as the empty group list. -/
theorem processCross_getD_eq (cross : Option (List (Str × NamedVal))) :
    processCross cross = (choiceSeqs (cross.getD [])).map (fun ch => pairsToDict ch) := by
  cases cross with
  | none => simp [processCross, choiceSeqs, pairsToDict]
  | some gs => exact processCross_some_eq gs

/-- Case analysis of a successful zipper call: either the degenerate
no-argument call, or the main path through `process_named_vals` and
`process_cross`. -/
theorem zipper_eq_cases {cross : Option (List (Str × NamedVal))}
    {nv : List (Str × NamedVal)} {ms : List Dict} (h : zipper cross nv = .ok ms) :
    (nv = [] ∧ cross = none ∧ ms = [[]]) ∨
      ∃ keys zipped, processNamedVals nv = .ok (keys, zipped) ∧
        ms = zipped.flatMap
          (fun z => (processCross cross).map (fun c => dictUnion (mkDict keys z) c)) := by
  by_cases hc : nv.isEmpty ∧ cross.isNone
  · left
    refine ⟨List.isEmpty_iff.mp hc.1, Option.isNone_iff_eq_none.mp hc.2, ?_⟩
    rw [zipper, if_pos hc] at h
    exact (Except.ok.inj h).symm
  · right
    rw [zipper, if_neg hc] at h
    match hpn : processNamedVals nv with
    | .error e => rw [hpn] at h; exact absurd h (by simp)
    | .ok (keys, zipped) =>
      rw [hpn] at h
      exact ⟨keys, zipped, rfl, (Except.ok.inj h).symm⟩

/-! ### The lockstep stage under uniform lengths -/

/-- The fold base is below the max fold. -/
theorem le_foldl_max_init : ∀ (l : List Nat) (init : Nat), init ≤ l.foldl Nat.max init := by
  intro l
  induction l with
  | nil => intro init; simp
  | cons x l ih =>
    intro init
    rw [List.foldl_cons]
    exact le_trans (Nat.le_max_left init x) (ih (Nat.max init x))

/-- Every member is below the max fold. -/
theorem le_foldl_max_of_mem {a : Nat} : ∀ {l : List Nat} (init : Nat),
    a ∈ l → a ≤ l.foldl Nat.max init := by
  intro l
  induction l with
  | nil => intro init h; exact absurd h (List.not_mem_nil a)
  | cons x l ih =>
    intro init h
    rw [List.foldl_cons]
    rcases List.mem_cons.mp h with rfl | h
    · exact le_trans (Nat.le_max_right init a) (le_foldl_max_init l (Nat.max init a))
    · exact ih _ h

/-- The max fold is below any common upper bound. -/
theorem foldl_max_le {b : Nat} : ∀ (l : List Nat) (init : Nat),
    init ≤ b → (∀ a ∈ l, a ≤ b) → l.foldl Nat.max init ≤ b := by
  intro l
  induction l with
  | nil => intro init hi _; simpa using hi
  | cons x l ih =>
    intro init hi hall
    rw [List.foldl_cons]
    exact ih _ (Nat.max_le.mpr ⟨hi, hall x (List.mem_cons_self x l)⟩)
      (fun a ha => hall a (List.mem_cons_of_mem x ha))

/-- `minLen` of a nonempty family of equal-length lists. -/
theorem minLen_eq_of_all {N : Nat} : ∀ {ls : List (List PyVal)},
    (∀ l ∈ ls, l.length = N) → ls ≠ [] → minLen ls = N := by
  intro ls
  induction ls with
  | nil => intro _ h; exact absurd rfl h
  | cons x xs ih =>
    intro hall _
    match xs with
    | [] => exact hall x (List.mem_cons_self x [])
    | y :: ys =>
      have h1 : minLen (x :: y :: ys) = Nat.min x.length (minLen (y :: ys)) := rfl
      rw [h1, hall x (List.mem_cons_self x (y :: ys)),
        ih (fun l hl => hall l (List.mem_cons_of_mem x hl)) (by simp)]
      exact Nat.min_self N

/-- `zipStar` produces `minLen` tuples. -/
theorem length_zipStar (ls : List (List PyVal)) : (zipStar ls).length = minLen ls := by
  simp [zipStar]

/-- Every `zipStar` tuple collects one element per list. -/
theorem mem_zipStar_length {ls : List (List PyVal)} {z : List PyVal}
    (h : z ∈ zipStar ls) : z.length = ls.length := by
  simp only [zipStar, List.mem_map, List.mem_range] at h
  obtain ⟨i, _, rfl⟩ := h
  exact List.length_map ls _

/-- Length of the flattened replicate (Python's `values * maxlen`). -/
theorem length_flatten_replicate : ∀ (n : Nat) (l : List PyVal),
    ((List.replicate n l).flatten).length = n * l.length := by
  intro n
  induction n with
  | zero => intro l; simp
  | succ n ih =>
    intro l
    rw [List.replicate_succ, List.flatten_cons, List.length_append, ih]
    ring

/-- Broadcasting does not change the parameter name. -/
theorem broadcast_fst (m : Nat) (q : Str × List PyVal) : (broadcast m q).1 = q.1 := by
  unfold broadcast
  split <;> rfl

/-- The key list survives normalization and broadcasting. -/
theorem keys_proc2Of (nv : List (Str × NamedVal)) :
    (proc2Of nv).map Prod.fst = nv.map Prod.fst := by
  unfold proc2Of procOf
  rw [List.map_map, List.map_map]
  apply List.map_congr_left
  intro p _
  simp [broadcast_fst]

/-- Under the uniform-length hypothesis of claim C3, the lockstep stage
succeeds and yields exactly `N` tuples of one value per named parameter. -/
theorem pnv_uniform (nv : List (Str × NamedVal)) (N : Nat) (hN : 1 ≤ N)
    (hall : ∀ p ∈ nv, (namedValList p.2).length = N ∨ (namedValList p.2).length = 1)
    (hex : N = 1 ∨ ∃ p ∈ nv, (namedValList p.2).length = N) :
    ∃ zipped, processNamedVals nv = .ok ((proc2Of nv).map Prod.fst, zipped) ∧
      zipped.length = N ∧ ∀ z ∈ zipped, z.length = nv.length := by
  by_cases hnv : nv = []
  · subst hnv
    have hN1 : N = 1 := by
      rcases hex with h | ⟨p, hp, _⟩
      · exact h
      · exact absurd hp (List.not_mem_nil p)
    refine ⟨[[]], by simp [processNamedVals, proc2Of, procOf], by simp [hN1], ?_⟩
    intro z hz
    simp only [List.mem_singleton] at hz
    simp [hz]
  · have hproclen : ∀ q ∈ procOf nv, q.2.length = N ∨ q.2.length = 1 := by
      intro q hq
      simp only [procOf, List.mem_map] at hq
      obtain ⟨p, hp, rfl⟩ := hq
      exact hall p hp
    have hdedup : ¬ 1 < (lengthsOf nv).dedup.length := by
      have hallN : ∀ a ∈ lengthsOf nv, a = N := by
        intro a ha
        simp only [lengthsOf, List.mem_map, List.mem_filter] at ha
        obtain ⟨q, ⟨hq, hgt⟩, rfl⟩ := ha
        simp only [decide_eq_true_eq] at hgt
        rcases hproclen q hq with h | h
        · exact h
        · omega
      have := dedup_length_le_one (fun a ha b hb => (hallN a ha).trans (hallN b hb).symm)
      omega
    have hlen2 : ∀ q ∈ proc2Of nv, q.2.length = N := by
      by_cases hN1 : N = 1
      · subst hN1
        have hall1 : ∀ q ∈ procOf nv, q.2.length = 1 := by
          intro q hq
          rcases hproclen q hq with h | h <;> exact h
        have hmle : maxlenOf nv ≤ 1 := by
          apply foldl_max_le _ _ (by omega)
          intro a ha
          simp only [List.mem_map] at ha
          obtain ⟨q, hq, rfl⟩ := ha
          exact le_of_eq (hall1 q hq)
        intro q hq
        simp only [proc2Of, List.mem_map] at hq
        obtain ⟨q', hq', rfl⟩ := hq
        have : broadcast (maxlenOf nv) q' = q' := by
          unfold broadcast
          rw [if_neg]
          rintro ⟨-, hlt⟩
          omega
        rw [this]
        exact hall1 q' hq'
      · have hNgt : 1 < N := by omega
        obtain ⟨p, hp, hpl⟩ : ∃ p ∈ nv, (namedValList p.2).length = N := by
          rcases hex with h | h
          · exact absurd h hN1
          · exact h
        have hm : maxlenOf nv = N := by
          apply Nat.le_antisymm
          · apply foldl_max_le _ _ (by omega)
            intro a ha
            simp only [List.mem_map] at ha
            obtain ⟨q, hq, rfl⟩ := ha
            rcases hproclen q hq with h | h <;> omega
          · apply le_foldl_max_of_mem
            simp only [List.mem_map]
            have hmemp : (p.1, namedValList p.2) ∈ procOf nv := by
              simp only [procOf, List.mem_map]
              exact ⟨p, hp, rfl⟩
            exact ⟨(p.1, namedValList p.2), hmemp, hpl⟩
        intro q hq
        simp only [proc2Of, List.mem_map] at hq
        obtain ⟨q', hq', rfl⟩ := hq
        rcases hproclen q' hq' with h | h
        · have : broadcast (maxlenOf nv) q' = q' := by
            unfold broadcast
            rw [if_neg]
            rintro ⟨h1, -⟩
            omega
          rw [this]
          exact h
        · have : broadcast (maxlenOf nv) q' =
              (q'.1, (List.replicate (maxlenOf nv) q'.2).flatten) := by
            unfold broadcast
            rw [if_pos ⟨h, by omega⟩]
          rw [this]
          simpa [length_flatten_replicate, h] using hm
    have hsndlen : ∀ l ∈ (proc2Of nv).map Prod.snd, l.length = N := by
      intro l hl
      simp only [List.mem_map] at hl
      obtain ⟨q, hq, rfl⟩ := hl
      exact hlen2 q hq
    have hne2 : (proc2Of nv).map Prod.snd ≠ [] := by
      simp [proc2Of, procOf, hnv]
    have hmin : minLen ((proc2Of nv).map Prod.snd) = N := minLen_eq_of_all hsndlen hne2
    refine ⟨zipStar ((proc2Of nv).map Prod.snd), ?_, ?_, ?_⟩
    · simp only [processNamedVals]
      rw [if_neg (by simpa using hnv), if_neg hdedup]
    · rw [length_zipStar, hmin]
    · intro z hz
      rw [mem_zipStar_length hz]
      simp [proc2Of, procOf]

/-- Claim C3: when every named value-list has length N or 1 (scalars counting
as 1, N the common length, or 1 if none exceeds it), zipper succeeds with
exactly N × k1 × ... × km mappings (ki the declared cross-group sizes), every
mapping has the same key list, and the key set is the union of the lockstep
and cross names.  Values are strings by the type of `Dict` (`pyStr` is
applied to every value). -/
theorem c3_counts_and_keys (cross : Option (List (Str × NamedVal)))
    (nv : List (Str × NamedVal)) (N : Nat) (hN : 1 ≤ N)
    (hall : ∀ p ∈ nv, (namedValList p.2).length = N ∨ (namedValList p.2).length = 1)
    (hex : N = 1 ∨ ∃ p ∈ nv, (namedValList p.2).length = N) :
    ∃ ms, zipper cross nv = .ok ms ∧
      ms.length = N * listProd ((cross.getD []).map (fun g => (crossItems g).length)) ∧
      (∀ m1 ∈ ms, ∀ m2 ∈ ms, m1.map Prod.fst = m2.map Prod.fst) ∧
      (∀ m ∈ ms, ∀ k, k ∈ m.map Prod.fst ↔
        (k ∈ nv.map Prod.fst ∨ k ∈ (cross.getD []).map Prod.fst)) := by
  by_cases hearly : nv.isEmpty ∧ cross.isNone
  · have hnv : nv = [] := List.isEmpty_iff.mp hearly.1
    have hcr : cross = none := Option.isNone_iff_eq_none.mp hearly.2
    subst hnv; subst hcr
    have hN1 : N = 1 := by
      rcases hex with h | ⟨p, hp, _⟩
      · exact h
      · exact absurd hp (List.not_mem_nil p)
    refine ⟨[[]], by simp [zipper], by simp [hN1, listProd], ?_, ?_⟩
    · intro m1 h1 m2 h2
      simp only [List.mem_singleton] at h1 h2
      rw [h1, h2]
    · intro m hm k
      simp only [List.mem_singleton] at hm
      subst hm
      simp
  · obtain ⟨zipped, hpnv, hzlen, hztup⟩ := pnv_uniform nv N hN hall hex
    have hz : zipper cross nv = .ok (zipped.flatMap (fun z =>
        (processCross cross).map
          (fun c => dictUnion (mkDict ((proc2Of nv).map Prod.fst) z) c))) := by
      rw [zipper, if_neg hearly, hpnv]
    have hkeylen : ((proc2Of nv).map Prod.fst).length = nv.length := by
      rw [List.length_map]
      simp [proc2Of, procOf]
    have hkeychar : ∀ m ∈ zipped.flatMap (fun z =>
        (processCross cross).map
          (fun c => dictUnion (mkDict ((proc2Of nv).map Prod.fst) z) c)),
        m.map Prod.fst =
          keyFold (keyFold [] ((proc2Of nv).map Prod.fst))
            (keyFold [] ((cross.getD []).map Prod.fst)) := by
      intro m hm
      simp only [List.mem_flatMap, List.mem_map] at hm
      obtain ⟨z, hzmem, c, hc, rfl⟩ := hm
      rw [keys_dictUnion]
      have hlock : (mkDict ((proc2Of nv).map Prod.fst) z).map Prod.fst =
          keyFold [] ((proc2Of nv).map Prod.fst) := by
        apply keys_mkDict
        rw [hkeylen, hztup z hzmem]
      rw [processCross_getD_eq] at hc
      simp only [List.mem_map] at hc
      obtain ⟨ch, hch, rfl⟩ := hc
      have hcc : (pairsToDict ch).map Prod.fst = keyFold [] (ch.map Prod.fst) := by
        rw [show pairsToDict ch = dictUnion [] ch from rfl, keys_dictUnion]
        rfl
      rw [hlock, hcc, choiceSeqs_keys hch]
    refine ⟨_, hz, ?_, ?_, ?_⟩
    · have hinner : ∀ z ∈ zipped,
          ((processCross cross).map
            (fun c => dictUnion (mkDict ((proc2Of nv).map Prod.fst) z) c)).length =
            listProd ((cross.getD []).map (fun g => (crossItems g).length)) := by
        intro z _
        rw [List.length_map, processCross_getD_eq, List.length_map, length_choiceSeqs]
      rw [length_flatMap_const hinner, hzlen]
    · intro m1 h1 m2 h2
      rw [hkeychar m1 h1, hkeychar m2 h2]
    · intro m hm k
      rw [hkeychar m hm, mem_keyFold, mem_keyFold, mem_keyFold, keys_proc2Of nv]
      constructor
      · rintro ((h | h) | (h | h))
        · exact absurd h (List.not_mem_nil k)
        · exact Or.inl h
        · exact absurd h (List.not_mem_nil k)
        · exact Or.inr h
      · rintro (h | h)
        · exact Or.inl (Or.inr h)
        · exact Or.inr (Or.inr h)

/-- Witness for C3: two lockstep rows crossed with a three-value group. -/
theorem c3_witness :
    ∃ ms,
      zipper (some [("s".data, NamedVal.seq [.vStr "A".data, .vStr "B".data, .vStr "C".data])])
          [("a".data, NamedVal.seq [.vStr "X".data, .vStr "Y".data])] = .ok ms ∧
        ms.length = 2 * listProd
          (((some [("s".data,
              NamedVal.seq [.vStr "A".data, .vStr "B".data, .vStr "C".data])]).getD []).map
            (fun g => (crossItems g).length)) ∧
        (∀ m1 ∈ ms, ∀ m2 ∈ ms, m1.map Prod.fst = m2.map Prod.fst) ∧
        (∀ m ∈ ms, ∀ k, k ∈ m.map Prod.fst ↔
          (k ∈ [("a".data, NamedVal.seq [.vStr "X".data, .vStr "Y".data])].map Prod.fst ∨
            k ∈ ((some [("s".data,
              NamedVal.seq [.vStr "A".data, .vStr "B".data, .vStr "C".data])]).getD []).map
              Prod.fst)) :=
  c3_counts_and_keys
    (some [("s".data, NamedVal.seq [.vStr "A".data, .vStr "B".data, .vStr "C".data])])
    [("a".data, NamedVal.seq [.vStr "X".data, .vStr "Y".data])] 2 (by decide) (by decide)
    (Or.inr ⟨("a".data, NamedVal.seq [.vStr "X".data, .vStr "Y".data]), by decide, by decide⟩)

/-- Claim C4: the order of a successful zipper result is the lockstep tuples
outermost (index varying slowest), and within each tuple the `choiceSeqs`
enumeration of the cross groups: nesting follows declaration order and the
last-declared group varies fastest. -/
theorem c4_enumeration_order (gs : List (Str × NamedVal)) (nv : List (Str × NamedVal))
    (ms : List Dict) (h : zipper (some gs) nv = .ok ms) :
    ∃ keys zipped, processNamedVals nv = .ok (keys, zipped) ∧
      ms = zipped.flatMap (fun z =>
        (choiceSeqs gs).map (fun ch => dictUnion (mkDict keys z) (pairsToDict ch))) := by
  rcases zipper_eq_cases h with ⟨-, hcr, -⟩ | ⟨keys, zipped, hpnv, hms⟩
  · exact absurd hcr (by simp)
  · refine ⟨keys, zipped, hpnv, ?_⟩
    rw [hms, processCross_some_eq]
    simp only [List.map_map]
    rfl

/-- Witness for C4: one lockstep pair against one two-value group, listing
the four mappings in their enumeration order. -/
theorem c4_witness :
    ∃ keys zipped,
      processNamedVals [("a".data, NamedVal.seq [.vStr "P".data, .vStr "Q".data])] =
          .ok (keys, zipped) ∧
        [[("a".data, "P".data), ("s".data, "U".data)],
          [("a".data, "P".data), ("s".data, "V".data)],
          [("a".data, "Q".data), ("s".data, "U".data)],
          [("a".data, "Q".data), ("s".data, "V".data)]] =
          zipped.flatMap (fun z =>
            (choiceSeqs [("s".data, NamedVal.seq [.vStr "U".data, .vStr "V".data])]).map
              (fun ch => dictUnion (mkDict keys z) (pairsToDict ch))) :=
  c4_enumeration_order [("s".data, NamedVal.seq [.vStr "U".data, .vStr "V".data])]
    [("a".data, NamedVal.seq [.vStr "P".data, .vStr "Q".data])]
    [[("a".data, "P".data), ("s".data, "U".data)],
      [("a".data, "P".data), ("s".data, "V".data)],
      [("a".data, "Q".data), ("s".data, "U".data)],
      [("a".data, "Q".data), ("s".data, "V".data)]] rfl

/-- Claim C9: when a declared cross group names parameter `k`, every mapping
of a successful zipper result takes its `k` value from its cross part — the
lookup in the merged dict equals the lookup in the cross dict (last-write-wins
over the lockstep value), and it is defined. -/
theorem c9_cross_precedence (gs : List (Str × NamedVal)) (nv : List (Str × NamedVal))
    (ms : List Dict) (k : Str) (h : zipper (some gs) nv = .ok ms)
    (hk : k ∈ gs.map Prod.fst) :
    ∀ m ∈ ms, ∃ keys zipped z ch, processNamedVals nv = .ok (keys, zipped) ∧
      z ∈ zipped ∧ ch ∈ choiceSeqs gs ∧
      m = dictUnion (mkDict keys z) (pairsToDict ch) ∧
      dictFind m k = dictFind (pairsToDict ch) k ∧
      (dictFind (pairsToDict ch) k).isSome = true := by
  rcases zipper_eq_cases h with ⟨-, hcr, -⟩ | ⟨keys, zipped, hpnv, hms⟩
  · exact absurd hcr (by simp)
  · intro m hm
    rw [hms] at hm
    simp only [List.mem_flatMap, List.mem_map] at hm
    obtain ⟨z, hz, c, hc, rfl⟩ := hm
    rw [processCross_some_eq] at hc
    simp only [List.mem_map] at hc
    obtain ⟨ch, hch, rfl⟩ := hc
    have hkeys : (pairsToDict ch).map Prod.fst = keyFold [] (ch.map Prod.fst) := by
      rw [show pairsToDict ch = dictUnion [] ch from rfl, keys_dictUnion]
      rfl
    have hkc : k ∈ (pairsToDict ch).map Prod.fst := by
      rw [hkeys, mem_keyFold]
      right
      rw [choiceSeqs_keys hch]
      exact hk
    have hnd : ((pairsToDict ch).map Prod.fst).Nodup := by
      rw [hkeys]
      exact nodup_keyFold List.nodup_nil
    exact ⟨keys, zipped, z, ch, hpnv, hz, hch, rfl,
      find_dictUnion_of_mem hnd hkc _, find_isSome_iff_mem.mpr hkc⟩

/-- Witness for C9: the group named `a` collides with the lockstep name `a`,
instantiated at the single resulting mapping. -/
theorem c9_witness :
    ∃ keys zipped z ch,
      processNamedVals [("a".data, NamedVal.seq [.vStr "L".data])] = .ok (keys, zipped) ∧
      z ∈ zipped ∧ ch ∈ choiceSeqs [("a".data, NamedVal.seq [.vStr "X".data])] ∧
      [("a".data, "X".data)] = dictUnion (mkDict keys z) (pairsToDict ch) ∧
      dictFind [("a".data, "X".data)] "a".data = dictFind (pairsToDict ch) "a".data ∧
      (dictFind (pairsToDict ch) "a".data).isSome = true :=
  c9_cross_precedence [("a".data, NamedVal.seq [.vStr "X".data])]
    [("a".data, NamedVal.seq [.vStr "L".data])] [[("a".data, "X".data)]] "a".data
    rfl (by decide) [("a".data, "X".data)] (List.mem_cons_self _ _)

/-! ### The command normalizer: the joining loop versus its specification -/

/-- `spaceJoin` over a cons with a nonempty tail. -/
theorem spaceJoin_cons_of_ne {l : Str} {ls : List Str} (h : ls ≠ []) :
    spaceJoin (l :: ls) = l ++ ' ' :: spaceJoin ls := by
  match ls with
  | [] => exact absurd rfl h
  | x :: xs => rfl

/-- Extending the final element extends the join. -/
theorem spaceJoin_concat_append : ∀ (a : List Str) (y m : Str),
    spaceJoin (a ++ [y ++ m]) = spaceJoin (a ++ [y]) ++ m := by
  intro a
  induction a with
  | nil => intro y m; rfl
  | cons b a ih =>
    intro y m
    rw [List.cons_append, List.cons_append, spaceJoin_cons_of_ne (by simp),
      spaceJoin_cons_of_ne (by simp), ih]
    simp

/-- Appending a fresh element appends it after a separating space. -/
theorem spaceJoin_append_single : ∀ {b : List Str}, b ≠ [] → ∀ (l : Str),
    spaceJoin (b ++ [l]) = spaceJoin b ++ ' ' :: l := by
  intro b
  induction b with
  | nil => intro h; exact absurd rfl h
  | cons x b ih =>
    intro _ l
    match b with
    | [] => rfl
    | y :: ys =>
      rw [List.cons_append, spaceJoin_cons_of_ne (by simp),
        spaceJoin_cons_of_ne (by simp), ih (by simp) l]
      simp

/-- A prefix test for `&&` only looks at the first two characters. -/
theorem ampPre_append {u x : Str} (h : 2 ≤ u.length) :
    (['&', '&'].isPrefixOf (u ++ x)) = ['&', '&'].isPrefixOf u := by
  match u with
  | [] => simp at h
  | [d] => simp at h
  | d :: e :: us => simp [List.isPrefixOf, List.cons_append]

/-- The `endswith('&&')` status of a merged line is that of its final line. -/
theorem endsAmp_append {a l : Str} (h : l ≠ []) : endsAmp (a ++ ' ' :: l) = endsAmp l := by
  unfold endsAmp
  unfold List.isSuffixOf
  have hrev : (a ++ ' ' :: l).reverse = l.reverse ++ ' ' :: a.reverse := by
    rw [List.reverse_append, List.reverse_cons, List.append_assoc]
    rfl
  rw [hrev]
  match l, h with
  | [c], _ => simp [List.isPrefixOf]
  | c1 :: c2 :: t, _ =>
    apply ampPre_append
    simp only [List.reverse_cons, List.length_append, List.length_append, List.length_singleton]
    omega

/-- `specTail` only reads its previous line through `endsAmp`. -/
theorem specTail_congr {p1 p2 : Str} (h : endsAmp p1 = endsAmp p2) (ls : List Str) :
    specTail p1 ls = specTail p2 ls := by
  cases ls with
  | nil => rfl
  | cons l ls => simp [specTail, h]

/-- One step of the joining loop, on an accumulator with final element. -/
theorem joinStep_concat (a : List Str) (last line : Str) :
    joinStep (a ++ [last]) line =
      if ¬ endsAmp last = true ∧ ¬ startsAmp line = true then
        a ++ [last ++ (' ' :: '&' :: '&' :: ' ' :: line)]
      else (a ++ [last]) ++ [line] := by
  unfold joinStep
  by_cases h : ¬ endsAmp last = true ∧ ¬ startsAmp line = true
  · rw [if_pos h, if_pos ⟨by simp, by rw [List.getLastD_concat]; exact h.1, h.2⟩,
      List.dropLast_concat, List.getLastD_concat]
  · rw [if_neg h, if_neg ?_]
    rintro ⟨-, h2, h3⟩
    rw [List.getLastD_concat] at h2
    exact h ⟨h2, h3⟩

/-- The joining loop computes, line by line, exactly the specification's
connective placement: a plain space next to an existing `&&`, the ` && `
connective otherwise. -/
theorem joinFold_eq : ∀ (ls : List Str), (∀ l ∈ ls, l ≠ []) → ∀ (a : List Str) (last : Str),
    spaceJoin (ls.foldl joinStep (a ++ [last])) = spaceJoin (a ++ [last]) ++ specTail last ls := by
  intro ls
  induction ls with
  | nil => intro _ a last; simp [specTail]
  | cons l ls ih =>
    intro hne a last
    have hl : l ≠ [] := hne l (List.mem_cons_self l ls)
    have hne' : ∀ x ∈ ls, x ≠ [] := fun x hx => hne x (List.mem_cons_of_mem l hx)
    rw [List.foldl_cons, joinStep_concat]
    by_cases hcond : ¬ endsAmp last = true ∧ ¬ startsAmp l = true
    · rw [if_pos hcond, ih hne' a (last ++ (' ' :: '&' :: '&' :: ' ' :: l)),
        spaceJoin_concat_append]
      have hamp : endsAmp (last ++ (' ' :: '&' :: '&' :: ' ' :: l)) = endsAmp l := by
        have hsplit : last ++ (' ' :: '&' :: '&' :: ' ' :: l) =
            (last ++ [' ', '&', '&']) ++ ' ' :: l := by simp
        rw [hsplit, endsAmp_append hl]
      rw [specTail_congr hamp]
      have hsep : specTail last (l :: ls) =
          (' ' :: '&' :: '&' :: ' ' :: l) ++ specTail l ls := by
        simp only [specTail]
        rw [if_neg ?_]
        intro hor
        rcases Bool.or_eq_true_iff.mp hor with h | h
        · exact hcond.1 h
        · exact hcond.2 h
      rw [hsep]
      simp
    · rw [if_neg hcond, ih hne' (a ++ [last]) l, spaceJoin_append_single (by simp) l]
      have hsep : specTail last (l :: ls) = (' ' :: l) ++ specTail l ls := by
        simp only [specTail]
        rw [if_pos ?_]
        rcases Decidable.not_and_iff_or_not.mp hcond with h | h
        · rw [Bool.or_eq_true_iff]
          exact Or.inl (Bool.of_not_eq_false (by simpa using h))
        · rw [Bool.or_eq_true_iff]
          exact Or.inr (Bool.of_not_eq_false (by simpa using h))
      rw [hsep]
      simp

/-- On nonempty, non-blank lines, the source's joining loop produces exactly
the specified join. -/
theorem joinLines_eq_specJoin : ∀ {ls : List Str}, (∀ l ∈ ls, l ≠ []) → ls ≠ [] →
    joinLines ls = specJoin ls := by
  intro ls h hne
  match ls with
  | l :: ls' =>
    unfold joinLines
    rw [List.foldl_cons]
    have h0 : joinStep [] l = [l] := by
      unfold joinStep
      rw [if_neg (by simp)]
      rfl
    rw [h0]
    have hfold := joinFold_eq ls' (fun x hx => h x (List.mem_cons_of_mem l hx)) [] l
    rw [List.nil_append] at hfold
    rw [hfold]
    simp [specJoin, spaceJoin]

/-- The accumulator fold of `execute_command` is a `filterMap`. -/
theorem processCommands_eq_filterMap (cmds : List Str) :
    processCommands cmds = cmds.filterMap normalizeCommand := by
  suffices hgen : ∀ (cs : List Str) (acc : List Str),
      cs.foldl
          (fun acc cmd =>
            let lines := normalizeLines cmd
            if lines = [] then acc else acc ++ [joinLines lines])
          acc = acc ++ cs.filterMap normalizeCommand by
    simpa [processCommands] using hgen cmds []
  intro cs
  induction cs with
  | nil => intro acc; simp
  | cons c cs ih =>
    intro acc
    rw [List.foldl_cons]
    by_cases hc : normalizeLines c = []
    · have h1 : normalizeCommand c = none := by simp [normalizeCommand, hc]
      have hstep : (let lines := normalizeLines c
          if lines = [] then acc else acc ++ [joinLines lines]) = acc := by
        simp [hc]
      rw [hstep, ih, List.filterMap_cons, h1]
    · have h1 : normalizeCommand c = some (joinLines (normalizeLines c)) := by
        simp [normalizeCommand, hc]
      have hstep : (let lines := normalizeLines c
          if lines = [] then acc else acc ++ [joinLines lines]) =
          acc ++ [joinLines (normalizeLines c)] := by
        simp [hc]
      rw [hstep, ih, List.filterMap_cons, h1]
      simp

/-- Claim C6: normalization splits each expanded command into lines, trims
them, discards the blank ones, and joins the survivors with the ` && `
connective — a plain space instead when the previous line already ends with
`&&` or the next already starts with `&&` (no duplicated connective) — and a
command whose lines are all blank is dropped from the batch entirely. -/
theorem c6_normalization (cmds : List Str) :
    processCommands cmds = cmds.filterMap (fun cmd =>
      if normalizeLines cmd = [] then none else some (specJoin (normalizeLines cmd))) := by
  rw [processCommands_eq_filterMap]
  induction cmds with
  | nil => rfl
  | cons c cmds ih =>
    rw [List.filterMap_cons, List.filterMap_cons, ih]
    by_cases hc : normalizeLines c = []
    · simp [normalizeCommand, hc]
    · have hnb : ∀ l ∈ normalizeLines c, l ≠ [] := by
        intro l hl
        simp only [normalizeLines, List.mem_filter, decide_eq_true_eq] at hl
        exact hl.2
      simp [normalizeCommand, hc, joinLines_eq_specJoin hnb hc]

/-! ### String replacement lemmas for the template expander -/

/-- The fuel of `replaceAux` is irrelevant once it covers the input length. -/
theorem replaceAux_fuel {pat rep : Str} : ∀ (n : Nat) (s : Str) (m : Nat),
    s.length ≤ n → s.length ≤ m → replaceAux pat rep n s = replaceAux pat rep m s := by
  intro n
  induction n with
  | zero =>
    intro s m hn _
    have : s = [] := List.eq_nil_of_length_eq_zero (by omega)
    subst this
    cases m <;> rfl
  | succ n ih =>
    intro s m hn hm
    cases s with
    | nil => cases m <;> rfl
    | cons c rest =>
      cases m with
      | zero => simp at hm
      | succ m' =>
      simp only [replaceAux]
      by_cases hcond : pat ≠ [] ∧ pat.isPrefixOf (c :: rest)
      · rw [if_pos hcond, if_pos hcond]
        congr 1
        apply ih
        · rw [List.length_drop, List.length_cons]
          have : 1 ≤ pat.length := by
            cases hp : pat with
            | nil => exact absurd hp hcond.1
            | cons _ _ => simp
          rw [List.length_cons] at hn
          omega
        · rw [List.length_drop, List.length_cons]
          have : 1 ≤ pat.length := by
            cases hp : pat with
            | nil => exact absurd hp hcond.1
            | cons _ _ => simp
          rw [List.length_cons] at hm
          omega
      · rw [if_neg hcond, if_neg hcond]
        congr 1
        apply ih
        · rw [List.length_cons] at hn; omega
        · rw [List.length_cons] at hm; omega

/-- The cons unfolding of the modelled `str.replace`. -/
theorem listReplace_cons (c : Char) (rest pat rep : Str) :
    listReplace (c :: rest) pat rep =
      if pat ≠ [] ∧ pat.isPrefixOf (c :: rest) then
        rep ++ listReplace ((c :: rest).drop pat.length) pat rep
      else c :: listReplace rest pat rep := by
  unfold listReplace
  rw [List.length_cons]
  simp only [replaceAux]
  by_cases hcond : pat ≠ [] ∧ pat.isPrefixOf (c :: rest)
  · rw [if_pos hcond, if_pos hcond]
    congr 1
    apply replaceAux_fuel
    · have hp1 : 1 ≤ pat.length := by
        cases hp : pat with
        | nil => exact absurd hp hcond.1
        | cons _ _ => simp
      rw [List.length_drop, List.length_cons]
      omega
    · exact le_refl _
  · rw [if_neg hcond, if_neg hcond]

/-- An occurrence splits the string around the pattern. -/
theorem occAt_to_infix {pat s : Str} {i : Nat} (h : occAt pat s i) :
    ∃ l r, l ++ (pat ++ r) = s := by
  have hpre : pat <+: s.drop i := List.isPrefixOf_iff_prefix.mp h
  obtain ⟨r, hr⟩ := hpre
  exact ⟨s.take i, r, by rw [hr, List.take_append_drop]⟩

/-- The head of an occurring pattern is a character of the string. -/
theorem occAt_head_mem {c : Char} {pt s : Str} {i : Nat} (h : occAt (c :: pt) s i) :
    c ∈ s := by
  obtain ⟨l, r, hlr⟩ := occAt_to_infix h
  rw [← hlr]
  simp

/-- No pattern occurs past the end of the string. -/
theorem not_occAt_oob {pat s : Str} {i : Nat} (hne : pat ≠ []) (h : s.length ≤ i) :
    ¬ occAt pat s i := by
  intro hocc
  rw [show occAt pat s i = (pat.isPrefixOf (s.drop i) = true) from rfl,
    List.drop_eq_nil_of_le h] at hocc
  match pat, hne with
  | p :: pt, _ => simp [List.isPrefixOf] at hocc

/-- An occurrence starting strictly inside the first summand of an append
puts the pattern head inside that summand. -/
theorem occAt_append_head {c : Char} {pt a b : Str} {i : Nat} (hi : i < a.length)
    (h : occAt (c :: pt) (a ++ b) i) : c ∈ a := by
  have hpre : (c :: pt) <+: (a ++ b).drop i := List.isPrefixOf_iff_prefix.mp h
  rw [List.drop_append_of_le_length (le_of_lt hi)] at hpre
  obtain ⟨r, hr⟩ := hpre
  have hne : a.drop i ≠ [] := by
    intro hnil
    have := congrArg List.length hnil
    rw [List.length_drop] at this
    simp at this
    omega
  match hd : a.drop i, hne with
  | d :: ds, _ =>
    rw [hd, List.cons_append] at hr
    have hcd : c = d := (List.cons.inj hr).1
    have : d ∈ a.drop i := by rw [hd]; exact List.mem_cons_self d ds
    rw [← hcd] at this
    exact List.drop_subset i a this

/-- A string containing no occurrence of the pattern is left unchanged. -/
theorem listReplace_of_no_occ : ∀ {s pat rep : Str},
    (∀ i, ¬ occAt pat s i) → listReplace s pat rep = s := by
  intro s
  induction s with
  | nil => intro pat rep _; rfl
  | cons c rest ih =>
    intro pat rep h
    rw [listReplace_cons, if_neg ?_]
    · rw [ih (fun i => h (i + 1))]
    · rintro ⟨hne, hpre⟩
      exact h 0 hpre

/-- A replacement on `a ++ b` with no occurrence starting inside `a` acts
only on `b`. -/
theorem listReplace_append_of_no_occ : ∀ {a pat b rep : Str},
    (∀ i, i < a.length → ¬ occAt pat (a ++ b) i) →
    listReplace (a ++ b) pat rep = a ++ listReplace b pat rep := by
  intro a
  induction a with
  | nil => intro pat b rep _; simp
  | cons c a' ih =>
    intro pat b rep h
    rw [List.cons_append, listReplace_cons, if_neg ?_]
    · rw [ih (fun i hi => h (i + 1) (by rw [List.length_cons]; omega))]
      rfl
    · rintro ⟨hne, hpre⟩
      exact h 0 (by rw [List.length_cons]; omega) hpre

/-- Replacing a pattern that starts the string. -/
theorem listReplace_head_match {pat : Str} (hne : pat ≠ []) (b rep : Str) :
    listReplace (pat ++ b) pat rep = rep ++ listReplace b pat rep := by
  match pat, hne with
  | p :: pt, _ =>
    rw [List.cons_append, listReplace_cons, if_pos ?_]
    · have hdrop : (p :: (pt ++ b)).drop (p :: pt).length = b := by
        rw [← List.cons_append]
        exact List.drop_left (p :: pt) b
      rw [hdrop]
    · refine ⟨by simp, ?_⟩
      rw [← List.cons_append]
      exact List.isPrefixOf_iff_prefix.mpr ⟨b, rfl⟩

/-- A replacement of the full string by itself as pattern. -/
theorem listReplace_self {pat : Str} (hne : pat ≠ []) (rep : Str) :
    listReplace pat pat rep = rep := by
  have h := listReplace_head_match hne [] rep
  rw [List.append_nil] at h
  rw [h, show listReplace [] pat rep = [] from rfl, List.append_nil]

/-- Two brace-free prefixes closed by the same brace are equal. -/
theorem braceCut : ∀ {k : Str} {x u v : Str}, '}' ∉ k → '}' ∉ x →
    k ++ '}' :: u = x ++ '}' :: v → k = x := by
  intro k
  induction k with
  | nil =>
    intro x u v _ hx h
    cases x with
    | nil => rfl
    | cons c x' =>
      rw [List.nil_append, List.cons_append] at h
      have hc : '}' = c := (List.cons.inj h).1
      exact absurd (hc ▸ List.mem_cons_self c x') hx
  | cons c k' ih =>
    intro x u v hk hx h
    cases x with
    | nil =>
      rw [List.nil_append, List.cons_append] at h
      have hc : c = '}' := (List.cons.inj h).1
      exact absurd (hc ▸ List.mem_cons_self c k') hk
    | cons d x' =>
      rw [List.cons_append, List.cons_append] at h
      obtain ⟨hcd, htl⟩ := List.cons.inj h
      rw [hcd, ih (fun hh => hk (List.mem_cons_of_mem c hh))
        (fun hh => hx (List.mem_cons_of_mem d hh)) htl]

/-- A `{key}` pattern for a brace-free key different from `x` never occurs in
the doubled-brace template `{{x}}`. -/
theorem keyPat_not_occ {k x : Str} (hk : k ≠ []) (hkb : braceFree k) (hxb : braceFree x)
    (hne : k ≠ x) :
    ∀ i, ¬ occAt ('{' :: (k ++ ['}'])) ('{' :: '{' :: (x ++ ['}', '}'])) i := by
  intro i hocc
  obtain ⟨l, r, hlr⟩ := occAt_to_infix hocc
  match l, hlr with
  | [], h =>
    rw [List.nil_append, List.cons_append] at h
    have h2 := (List.cons.inj h).2
    rw [List.append_assoc, List.singleton_append] at h2
    cases hkc : k with
    | nil => exact hk hkc
    | cons ck k' =>
      rw [hkc, List.cons_append] at h2
      have : ck = '{' := (List.cons.inj h2).1
      exact hkb.1 (by rw [hkc, this]; exact List.mem_cons_self '{' k')
  | [c0], h =>
    rw [List.singleton_append, List.cons_append] at h
    have h2 := (List.cons.inj h).2
    have h3 := (List.cons.inj h2).2
    rw [List.append_assoc, List.singleton_append] at h3
    exact hne (braceCut hkb.2 hxb.2 h3)
  | c0 :: c1 :: l', h =>
    rw [List.cons_append, List.cons_append] at h
    have h2 := (List.cons.inj h).2
    have h3 := (List.cons.inj h2).2
    have hmem : '{' ∈ l' ++ ('{' :: (k ++ ['}']) ++ r) := by
      simp
    rw [h3] at hmem
    rcases List.mem_append.mp hmem with hm | hm
    · exact hxb.1 hm
    · simp at hm

/-- The key-substitution fold leaves the command unchanged when every single
replacement does. -/
theorem substKeys_unchanged : ∀ {vd : Dict} {cmd : Str},
    (∀ kv ∈ vd, listReplace cmd ('{' :: (kv.1 ++ ['}'])) kv.2 = cmd) →
    substKeys cmd vd = cmd := by
  intro vd
  induction vd with
  | nil => intro cmd _; rfl
  | cons kv vd ih =>
    intro cmd h
    have h1 : substKeys cmd (kv :: vd) =
        substKeys (listReplace cmd ('{' :: (kv.1 ++ ['}'])) kv.2) vd := rfl
    rw [h1, h kv (List.mem_cons_self kv vd), ih (fun p hp => h p (List.mem_cons_of_mem kv hp))]

/-- A brace-free string has no `{...}` spans. -/
theorem findSpansAux_no_brace : ∀ (n : Nat) {s : Str}, '{' ∉ s → findSpansAux n s = [] := by
  intro n
  induction n with
  | zero => intro s _; cases s <;> rfl
  | succ n ih =>
    intro s h
    cases s with
    | nil => rfl
    | cons c rest =>
      have hc : ¬ c = '{' := fun hh => h (hh ▸ List.mem_cons_self c rest)
      simp only [findSpansAux]
      rw [if_neg hc]
      exact ih (fun hh => h (List.mem_cons_of_mem c hh))

/-- `findSpans` of a brace-free string is empty. -/
theorem findSpans_no_brace {s : Str} (h : '{' ∉ s) : findSpans s = [] :=
  findSpansAux_no_brace s.length h

/-- A failing oracle leaves the evaluation loop's string untouched: this is
the `except Exception: pass` of source lines 204-205. -/
theorem evalLoop_all_fail {oracle : Str → Option Str} : ∀ {es : List Str} {s : Str},
    (∀ e ∈ es, oracle e = none) → evalLoop oracle es s = s := by
  intro es
  induction es with
  | nil => intro s _; rfl
  | cons e es ih =>
    intro s h
    have h1 : evalLoop oracle (e :: es) s =
        match oracle e with
        | some v => evalLoop oracle es (listReplace s ('{' :: (e ++ ['}'])) v)
        | none => evalLoop oracle es s := rfl
    rw [h1, h e (List.mem_cons_self e es)]
    exact ih (fun e' he' => h e' (List.mem_cons_of_mem e he'))

/-- Stripping a string that neither starts nor ends in whitespace. -/
theorem pyStrip_of_ends {c1 c2 : Char} {mid : Str} (h1 : isPyWS c1 = false)
    (h2 : isPyWS c2 = false) : pyStrip (c1 :: (mid ++ [c2])) = c1 :: (mid ++ [c2]) := by
  have hd1 : (c1 :: (mid ++ [c2])).dropWhile isPyWS = c1 :: (mid ++ [c2]) := by
    rw [List.dropWhile_cons]
    simp [h1]
  have hrev : (c1 :: (mid ++ [c2])).reverse = c2 :: (mid.reverse ++ [c1]) := by
    rw [List.reverse_cons, List.reverse_append]
    simp
  have hd2 : (c2 :: (mid.reverse ++ [c1])).dropWhile isPyWS = c2 :: (mid.reverse ++ [c1]) := by
    rw [List.dropWhile_cons]
    simp [h2]
  unfold pyStrip
  rw [hd1, hrev, hd2, ← hrev, List.reverse_reverse]

/-- Counterexample to claim C1 as stated: with template `{{x}}` and the
mapping `{x: "5"}`, the key substitution of source line 172 runs before the
brace protection of line 176, so `{{x}}` becomes `{5}` and then evaluates to
`5` — not the literal `{x}` the claim promises for every mapping. -/
theorem c1_counterexample :
    evalZippered (fun e => if e = "5".data then some ("5".data) else none)
        ("{{x}}".data) [("x".data, "5".data)] = "5".data ∧
      evalZippered (fun e => if e = "5".data then some ("5".data) else none)
        ("{{x}}".data) [("x".data, "5".data)] ≠ "{x}".data := by
  exact ⟨by decide, by decide⟩

/-- The run scanned by `findSpansAux` splits its string. -/
theorem takeWhile_drop_split (q : Char → Bool) (rest : Str) :
    rest.takeWhile q ++ rest.drop (rest.takeWhile q).length = rest := by
  obtain ⟨t, ht⟩ := List.takeWhile_prefix (l := rest) q
  set A := rest.takeWhile q with hA
  calc A ++ rest.drop A.length = A ++ (A ++ t).drop A.length := by rw [← ht]
    _ = A ++ t := by rw [List.drop_left]
    _ = rest := ht

/-- Every span reported by the scanner is an actual `{...}` bracket of the
string. -/
theorem findSpansAux_mem_infix : ∀ (n : Nat) {s e : Str}, e ∈ findSpansAux n s →
    ('{' :: (e ++ ['}'])) <:+: s := by
  intro n
  induction n with
  | zero =>
    intro s e h
    cases s <;> exact absurd h (List.not_mem_nil e)
  | succ n ih =>
    intro s e h
    cases s with
    | nil => exact absurd h (List.not_mem_nil e)
    | cons c rest =>
      simp only [findSpansAux] at h
      by_cases hc : c = '{'
      · rw [if_pos hc] at h
        subst hc
        split at h
        · next tail heq =>
            split at h
            · exact List.infix_cons (ih h)
            · rcases List.mem_cons.mp h with rfl | hmem
              · have hsplit := takeWhile_drop_split (fun d => !(d == '{' || d == '}')) rest
                rw [heq] at hsplit
                refine ⟨[], tail, ?_⟩
                rw [List.nil_append, List.cons_append, List.append_assoc,
                  List.singleton_append, hsplit]
              · have hsuf : tail <:+ rest := by
                  have hsplit := takeWhile_drop_split (fun d => !(d == '{' || d == '}')) rest
                  rw [heq] at hsplit
                  refine ⟨(rest.takeWhile (fun d => !(d == '{' || d == '}'))) ++ ['}'], ?_⟩
                  rw [List.append_assoc, List.singleton_append, hsplit]
                exact List.infix_cons ((ih hmem).trans hsuf.isInfix)
        · next heq => exact List.infix_cons (ih h)
      · rw [if_neg hc] at h
        exact List.infix_cons (ih h)

/-- `findSpans` form of the span lemma. -/
theorem findSpans_mem_infix {s e : Str} (h : e ∈ findSpans s) :
    ('{' :: (e ++ ['}'])) <:+: s :=
  findSpansAux_mem_infix s.length h

/-- Every span reported by the scanner is brace-free: its text is a
takeWhile-run of non-brace characters. -/
theorem findSpansAux_braceFree : ∀ (n : Nat) {s e : Str}, e ∈ findSpansAux n s →
    braceFree e := by
  intro n
  induction n with
  | zero => intro s e h; cases s <;> exact absurd h (List.not_mem_nil e)
  | succ n ih =>
    intro s e h
    cases s with
    | nil => exact absurd h (List.not_mem_nil e)
    | cons c rest =>
      simp only [findSpansAux] at h
      by_cases hc : c = '{'
      · rw [if_pos hc] at h
        split at h
        · next tail heq =>
          split at h
          · exact ih h
          · rcases List.mem_cons.mp h with rfl | hmem
            · constructor
              · intro hmem2
                have := List.mem_takeWhile_imp hmem2
                simp at this
              · intro hmem2
                have := List.mem_takeWhile_imp hmem2
                simp at this
            · exact ih hmem
        · next heq => exact ih h
      · rw [if_neg hc] at h
        exact ih h

/-- `findSpans` form of the brace-freeness lemma. -/
theorem findSpans_braceFree {s e : Str} (h : e ∈ findSpans s) : braceFree e :=
  findSpansAux_braceFree s.length h

/-- A prefix of an append no longer than the first part is a prefix of it. -/
theorem prefix_of_append_of_le {pat a b : Str} (h : pat <+: a ++ b)
    (hlen : pat.length ≤ a.length) : pat <+: a :=
  List.prefix_of_prefix_length_le h (List.prefix_append a b) hlen

/-- Splitting an append equality when the first parts have different lengths. -/
theorem append_eq_of_lt_length {l1 l2 m1 m2 : Str} (h : l1 ++ l2 = m1 ++ m2)
    (hlt : m1.length < l1.length) :
    ∃ t, t ≠ [] ∧ l1 = m1 ++ t ∧ t ++ l2 = m2 := by
  have hm1 : m1 = l1.take m1.length := by
    have h1 : (m1 ++ m2).take m1.length = m1 := List.take_left m1 m2
    rw [← h, List.take_append_of_le_length (le_of_lt hlt)] at h1
    exact h1.symm
  have h2 : l1 = m1 ++ l1.drop m1.length := by
    have h4 : l1.take m1.length ++ l1.drop m1.length = l1 :=
      List.take_append_drop m1.length l1
    rw [← hm1] at h4
    exact h4.symm
  refine ⟨l1.drop m1.length, ?_, h2, ?_⟩
  · intro hnil
    have hlen := congrArg List.length hnil
    rw [List.length_drop] at hlen
    simp at hlen
    omega
  · have h3 : m1 ++ (l1.drop m1.length ++ l2) = m1 ++ m2 := by
      rw [← List.append_assoc, ← h2, h]
    exact List.append_cancel_left h3

/-- Shift of an occurrence through a drop. -/
theorem occAt_drop {pat s : Str} {k i : Nat} :
    occAt pat (s.drop k) i ↔ occAt pat s (k + i) := by
  show pat.isPrefixOf ((s.drop k).drop i) = true ↔ pat.isPrefixOf (s.drop (k + i)) = true
  rw [List.drop_drop]

/-- An occurrence that fits inside the first part of an append is exactly an
occurrence of that part. -/
theorem occAt_append_iff_of_fit {pat a c : Str} {i : Nat}
    (hfit : i + pat.length ≤ a.length) :
    occAt pat (a ++ c) i ↔ occAt pat a i := by
  have hia : i ≤ a.length := le_trans (Nat.le_add_right i pat.length) hfit
  constructor
  · intro h
    have hpre : pat <+: (a ++ c).drop i := List.isPrefixOf_iff_prefix.mp h
    rw [List.drop_append_of_le_length hia] at hpre
    have hp : pat <+: a.drop i := prefix_of_append_of_le hpre (by
      rw [List.length_drop]; omega)
    exact List.isPrefixOf_iff_prefix.mpr hp
  · intro h
    have hpre : pat <+: a.drop i := List.isPrefixOf_iff_prefix.mp h
    apply List.isPrefixOf_iff_prefix.mpr
    rw [List.drop_append_of_le_length hia]
    exact hpre.trans (List.prefix_append _ _)

/-- Dropping past the first part of an append. -/
theorem drop_append_ge : ∀ (P : Str) {Q : Str} {i : Nat}, P.length ≤ i →
    (P ++ Q).drop i = Q.drop (i - P.length) := by
  intro P
  induction P with
  | nil => intro Q i _; simp
  | cons c P' ih =>
    intro Q i h
    rw [List.length_cons] at h
    cases i with
    | zero => omega
    | succ j =>
      rw [List.cons_append, List.drop_succ_cons, ih (by omega), List.length_cons]
      congr 1
      omega

/-- The modelled `str.replace` distributes over an append when no occurrence
of the pattern crosses the boundary. -/
theorem listReplace_append_of_no_cross : ∀ {a b pat rep : Str}, pat ≠ [] →
    noCrossAt pat a b →
    listReplace (a ++ b) pat rep = listReplace a pat rep ++ listReplace b pat rep := by
  suffices H : ∀ (n : Nat) (a b pat rep : Str), a.length ≤ n → pat ≠ [] →
      noCrossAt pat a b →
      listReplace (a ++ b) pat rep = listReplace a pat rep ++ listReplace b pat rep by
    intro a b pat rep hpat h
    exact H a.length a b pat rep le_rfl hpat h
  intro n
  induction n with
  | zero =>
    intro a b pat rep hn _ _
    have ha : a = [] := List.eq_nil_of_length_eq_zero (by omega)
    subst ha
    rfl
  | succ n ih =>
    intro a b pat rep hn hpat h
    cases a with
    | nil => rfl
    | cons c a' =>
      have hpl : 1 ≤ pat.length := List.length_pos.mpr hpat
      rw [List.cons_append, listReplace_cons]
      by_cases hm : pat.isPrefixOf (c :: (a' ++ b))
      · rw [if_pos ⟨hpat, hm⟩]
        have hfit0 := h 0 (by simp) (show occAt pat ((c :: a') ++ b) 0 from hm)
        have hfit : pat.length ≤ (c :: a').length := by omega
        have hd : (c :: (a' ++ b)).drop pat.length = (c :: a').drop pat.length ++ b := by
          rw [← List.cons_append]
          exact List.drop_append_of_le_length hfit
        rw [hd]
        have hma : pat <+: (c :: a') :=
          prefix_of_append_of_le (a := c :: a') (b := b)
            (List.isPrefixOf_iff_prefix.mp hm) hfit
        rw [show listReplace (c :: a') pat rep =
            rep ++ listReplace ((c :: a').drop pat.length) pat rep from by
          rw [listReplace_cons, if_pos ⟨hpat, List.isPrefixOf_iff_prefix.mpr hma⟩]]
        rw [List.append_assoc]
        congr 1
        apply ih _ _ _ _ ?_ hpat ?_
        · rw [List.length_drop, List.length_cons]
          rw [List.length_cons] at hn
          omega
        · intro i hi hocc
          have hocc2 : occAt pat (((c :: a') ++ b).drop pat.length) i := by
            rw [List.drop_append_of_le_length hfit]
            exact hocc
          have hocc3 : occAt pat ((c :: a') ++ b) (pat.length + i) := occAt_drop.mp hocc2
          rw [List.length_drop] at hi
          have hcross := h (pat.length + i) (by omega) hocc3
          rw [List.length_drop]
          omega
      · rw [if_neg (by rintro ⟨_, hp⟩; exact hm hp)]
        have hmna : ¬ pat.isPrefixOf (c :: a') := by
          intro hp
          apply hm
          apply List.isPrefixOf_iff_prefix.mpr
          exact (List.isPrefixOf_iff_prefix.mp hp).trans (List.prefix_append (c :: a') b)
        rw [show listReplace (c :: a') pat rep = c :: listReplace a' pat rep from by
          rw [listReplace_cons, if_neg (by rintro ⟨_, hp⟩; exact hmna hp)]]
        rw [List.cons_append]
        congr 1
        apply ih _ _ _ _ ?_ hpat ?_
        · rw [List.length_cons] at hn; omega
        · intro i hi hocc
          have hocc2 : occAt pat ((c :: a') ++ b) (i + 1) := hocc
          have := h (i + 1) (by rw [List.length_cons]; omega) hocc2
          rw [List.length_cons] at this
          omega

/-- A pattern whose tail avoids the first character of `B` cannot cross from
`A` into `B`. -/
theorem noCross_of_head_not_mem_tail {pat A B : Str} {c : Char}
    (hB : B.head? = some c) (hc : c ∉ pat.drop 1) : noCrossAt pat A B := by
  intro i hi hocc
  by_contra hgt
  push_neg at hgt
  have hpre : pat <+: (A ++ B).drop i := List.isPrefixOf_iff_prefix.mp hocc
  rw [List.drop_append_of_le_length (le_of_lt hi)] at hpre
  obtain ⟨r, hr⟩ := hpre
  obtain ⟨t, htne, hteq, ht3⟩ := append_eq_of_lt_length hr (by
    rw [List.length_drop]; omega)
  obtain ⟨c0, t', rfl⟩ := List.exists_cons_of_ne_nil htne
  have hc0 : c0 = c := by
    rw [← ht3] at hB
    simpa using hB
  have hAd : A.drop i ≠ [] := by
    intro hnil
    have hlen := congrArg List.length hnil
    rw [List.length_drop] at hlen
    simp at hlen
    omega
  obtain ⟨d0, d', hd⟩ := List.exists_cons_of_ne_nil hAd
  rw [hd, List.cons_append] at hteq
  apply hc
  have htl : pat.drop 1 = d' ++ (c0 :: t') := by rw [hteq]; rfl
  rw [htl, hc0]
  simp

/-- A `{key}` pattern for a brace-free key different from `x` never occurs
starting inside the doubled-brace block of `dblBrace x ++ B`. -/
theorem keyPat_not_occ_dbl {k x : Str} (hk : k ≠ []) (hkb : braceFree k)
    (hxb : braceFree x) (hne : k ≠ x) (B : Str) :
    ∀ i, i < (dblBrace x).length → ¬ occAt ('{' :: (k ++ ['}'])) (dblBrace x ++ B) i := by
  intro i hi hocc
  have hpre : ('{' :: (k ++ ['}'])) <+: (dblBrace x ++ B).drop i :=
    List.isPrefixOf_iff_prefix.mp hocc
  match i with
  | 0 =>
    obtain ⟨r, hr⟩ := hpre
    rw [List.drop_zero] at hr
    rw [show dblBrace x ++ B = '{' :: ('{' :: ((x ++ ['}', '}']) ++ B)) from by
      simp [dblBrace]] at hr
    rw [List.cons_append] at hr
    have h2 := (List.cons.inj hr).2
    cases hkc : k with
    | nil => exact hk hkc
    | cons ck k' =>
      rw [hkc, List.cons_append, List.cons_append] at h2
      have hck : ck = '{' := (List.cons.inj h2).1
      exact hkb.1 (by rw [hkc, hck]; exact List.mem_cons_self '{' k')
  | 1 =>
    obtain ⟨r, hr⟩ := hpre
    rw [show (dblBrace x ++ B).drop 1 = '{' :: (x ++ ('}' :: '}' :: B)) from by
      simp [dblBrace]] at hr
    rw [List.cons_append] at hr
    have h2 := (List.cons.inj hr).2
    rw [List.append_assoc, List.singleton_append] at h2
    exact hne (braceCut hkb.2 hxb.2 h2)
  | j + 2 =>
    have hocc2 : occAt ('{' :: (k ++ ['}'])) ((x ++ ['}', '}']) ++ B) j := by
      show ('{' :: (k ++ ['}'])).isPrefixOf (((x ++ ['}', '}']) ++ B).drop j) = true
      have hdr : (dblBrace x ++ B).drop (j + 2) = ((x ++ ['}', '}']) ++ B).drop j := by
        simp [dblBrace]
      rw [← hdr]
      exact hocc
    have hj : j < (x ++ ['}', '}']).length := by
      simp [dblBrace] at hi
      simp
      omega
    have hhead := occAt_append_head hj hocc2
    rcases List.mem_append.mp hhead with hm | hm
    · exact hxb.1 hm
    · simp at hm

/-- Key substitution acts independently of a doubled-brace block: no `{key}`
occurrence can overlap `{{x}}` when the keys are brace-free and differ from
`x`. -/
theorem substKeys_around {x : Str} (hxb : braceFree x) : ∀ (vd : Dict) (pre post : Str),
    (∀ kv ∈ vd, kv.1 ≠ [] ∧ braceFree kv.1 ∧ kv.1 ≠ x) →
    substKeys (pre ++ dblBrace x ++ post) vd =
      substKeys pre vd ++ dblBrace x ++ substKeys post vd := by
  intro vd
  induction vd with
  | nil => intro pre post _; rfl
  | cons kv vd ih =>
    intro pre post h
    have hkv := h kv (List.mem_cons_self kv vd)
    have hstep : listReplace (pre ++ dblBrace x ++ post) ('{' :: (kv.1 ++ ['}'])) kv.2 =
        listReplace pre ('{' :: (kv.1 ++ ['}'])) kv.2 ++ dblBrace x ++
          listReplace post ('{' :: (kv.1 ++ ['}'])) kv.2 := by
      rw [List.append_assoc, listReplace_append_of_no_cross (by simp)
        (noCross_of_head_not_mem_tail
          (show (dblBrace x ++ post).head? = some '{' from by simp [dblBrace])
          (by
            show '{' ∉ kv.1 ++ ['}']
            intro hmem
            rcases List.mem_append.mp hmem with hm | hm
            · exact hkv.2.1.1 hm
            · simp at hm)),
        listReplace_append_of_no_occ (keyPat_not_occ_dbl hkv.1 hkv.2.1 hxb hkv.2.2 post),
        ← List.append_assoc]
    show substKeys (listReplace (pre ++ dblBrace x ++ post) ('{' :: (kv.1 ++ ['}'])) kv.2)
      vd = _
    rw [hstep]
    exact ih _ _ (fun p hp => h p (List.mem_cons_of_mem kv hp))

/-- Brace protection acts independently around the doubled-brace block when
the substituted prefix does not end in a dangling `{`. -/
theorem protect_around {x A B : Str} (hx : x ≠ []) (hxb : braceFree x)
    (hpre : noCrossAt ['{', '{'] A (dblBrace x ++ B)) :
    protectBraces (A ++ dblBrace x ++ B) =
      protectBraces A ++ sentL ++ x ++ sentR ++ protectBraces B := by
  have hno1 : ∀ i, i < (x ++ ['}', '}']).length →
      ¬ occAt ['{', '{'] ((x ++ ['}', '}']) ++ B) i := by
    intro i hi hocc
    rcases List.mem_append.mp (occAt_append_head hi hocc) with hm | hm
    · exact hxb.1 hm
    · simp at hm
  have e1 : listReplace (A ++ dblBrace x ++ B) ['{', '{'] sentL =
      ((listReplace A ['{', '{'] sentL ++ sentL) ++ x) ++
        (['}', '}'] ++ listReplace B ['{', '{'] sentL) := by
    have hinner : listReplace (dblBrace x ++ B) ['{', '{'] sentL =
        sentL ++ ((x ++ ['}', '}']) ++ listReplace B ['{', '{'] sentL) := by
      have hsh : dblBrace x ++ B = ['{', '{'] ++ ((x ++ ['}', '}']) ++ B) := by
        simp [dblBrace]
      rw [hsh, listReplace_head_match (by simp), listReplace_append_of_no_occ hno1]
    rw [List.append_assoc, listReplace_append_of_no_cross (by simp) hpre, hinner]
    simp [List.append_assoc]
  have hx1 : 1 ≤ x.length := List.length_pos.mpr hx
  have hncLEFT : noCrossAt ['}', '}'] ((listReplace A ['{', '{'] sentL ++ sentL) ++ x)
      (['}', '}'] ++ listReplace B ['{', '{'] sentL) := by
    intro i hi hocc
    by_contra hgt
    push_neg at hgt
    have hp2 : (['}', '}'] : Str).length = 2 := rfl
    rw [hp2] at hgt
    rw [List.length_append] at hi hgt
    have hiP : (listReplace A ['{', '{'] sentL ++ sentL).length ≤ i := by omega
    have hocc2 : occAt ['}', '}']
        (x ++ (['}', '}'] ++ listReplace B ['{', '{'] sentL))
        (i - (listReplace A ['{', '{'] sentL ++ sentL).length) := by
      show (['}', '}'] : Str).isPrefixOf _ = true
      rw [← drop_append_ge _ hiP,
        show (listReplace A ['{', '{'] sentL ++ sentL) ++
            (x ++ (['}', '}'] ++ listReplace B ['{', '{'] sentL)) =
          ((listReplace A ['{', '{'] sentL ++ sentL) ++ x) ++
            (['}', '}'] ++ listReplace B ['{', '{'] sentL) from by
          simp [List.append_assoc]]
      exact hocc
    have hj : i - (listReplace A ['{', '{'] sentL ++ sentL).length < x.length := by omega
    exact hxb.2 (occAt_append_head hj hocc2)
  have hno2 : ∀ i, ¬ occAt ['}', '}'] (sentL ++ x) i := by
    intro i hocc
    rcases List.mem_append.mp (occAt_head_mem hocc) with hm | hm
    · revert hm; decide
    · exact hxb.2 hm
  have hLA : listReplace ((listReplace A ['{', '{'] sentL ++ sentL) ++ x) ['}', '}'] sentR =
      (listReplace (listReplace A ['{', '{'] sentL) ['}', '}'] sentR ++ sentL) ++ x := by
    rw [List.append_assoc, listReplace_append_of_no_cross (by simp)
        (noCross_of_head_not_mem_tail
          (show (sentL ++ x).head? = some '_' from by simp [sentL]) (by decide)),
      listReplace_of_no_occ hno2]
    simp [List.append_assoc]
  show listReplace (listReplace (A ++ dblBrace x ++ B) ['{', '{'] sentL) ['}', '}'] sentR = _
  rw [e1, listReplace_append_of_no_cross (by simp) hncLEFT,
    listReplace_head_match (by simp), hLA]
  simp [protectBraces, List.append_assoc]

/-- A span pattern `{e}` cannot cross from the left context into the
sentinel-protected block: its closing brace would land inside the brace-free
block, or its text would swallow the whole block and with it a sentinel. -/
theorem spanPat_noCross_block {e x CurB : Str} (_hb : braceFree e)
    (hsent : ∀ i < e.length, ¬ occAt sentL e i) (hxb : braceFree x) (CurA : Str) :
    noCrossAt ('{' :: (e ++ ['}'])) CurA (sentL ++ x ++ sentR ++ CurB) := by
  intro i hi hocc
  by_contra hgt
  push_neg at hgt
  have hpl : ('{' :: (e ++ ['}'])).length = e.length + 2 := by simp
  have hpre : ('{' :: (e ++ ['}'])) <+: (CurA ++ (sentL ++ x ++ sentR ++ CurB)).drop i :=
    List.isPrefixOf_iff_prefix.mp hocc
  rw [List.drop_append_of_le_length (le_of_lt hi)] at hpre
  obtain ⟨r, hr⟩ := hpre
  obtain ⟨t, htne, hteq, ht3⟩ := append_eq_of_lt_length hr (by
    rw [List.length_drop]; omega)
  have hj1 : 1 ≤ (CurA.drop i).length := by
    rw [List.length_drop]
    omega
  have htpat : t = ('{' :: (e ++ ['}'])).drop (CurA.drop i).length := by
    rw [hteq, List.drop_left]
  obtain ⟨m, hm⟩ : ∃ m, (CurA.drop i).length = m + 1 :=
    ⟨(CurA.drop i).length - 1, by omega⟩
  have htpat2 : t = (e ++ ['}']).drop m := by
    rw [htpat, hm, List.drop_succ_cons]
  have hm_le : m ≤ e.length := by
    have hlt := congrArg List.length hteq
    rw [List.length_append, hm, hpl] at hlt
    have htl : 1 ≤ t.length := List.length_pos.mpr htne
    omega
  have ht_decomp : t = e.drop m ++ ['}'] := by
    rw [htpat2, List.drop_append_of_le_length hm_le]
  have hrb : '}' ∈ t := by rw [ht_decomp]; simp
  by_cases hcase : t.length ≤ ((sentL ++ x) ++ sentR).length
  · have htpre : t <+: ((sentL ++ x) ++ sentR) := prefix_of_append_of_le ⟨r, ht3⟩ hcase
    have hmem := htpre.subset hrb
    rcases List.mem_append.mp hmem with hm2 | hm2
    · rcases List.mem_append.mp hm2 with hm3 | hm3
      · revert hm3; decide
      · exact hxb.2 hm3
    · revert hm2; decide
  · push_neg at hcase
    obtain ⟨u, hune, hueq, hu3⟩ := append_eq_of_lt_length ht3 hcase
    have hslpre : sentL <+: t := by
      rw [hueq, show ((sentL ++ x) ++ sentR) ++ u = sentL ++ ((x ++ sentR) ++ u) from by
        simp [List.append_assoc]]
      exact List.prefix_append _ _
    rw [ht_decomp] at hslpre
    by_cases hc2 : sentL.length ≤ (e.drop m).length
    · have hp2 : sentL <+: e.drop m := prefix_of_append_of_le hslpre hc2
      have hmlt : m < e.length := by
        rw [List.length_drop] at hc2
        have h15 : sentL.length = 15 := by decide
        omega
      exact hsent m hmlt (List.isPrefixOf_iff_prefix.mpr hp2)
    · push_neg at hc2
      obtain ⟨rr, hrr⟩ := hslpre
      obtain ⟨w, hwne, hweq, hw3⟩ := append_eq_of_lt_length hrr hc2
      obtain ⟨w0, w', rfl⟩ := List.exists_cons_of_ne_nil hwne
      have hw0 : w0 = '}' := by
        have hh := congrArg List.head? hw3
        simpa using hh
      have hbad : '}' ∈ sentL := by
        rw [hweq, hw0]
        simp
      revert hbad
      decide

/-- One evaluation-loop step with a successful oracle. -/
theorem evalLoop_cons_some {oracle : Str → Option Str} {e v : Str} (h : oracle e = some v)
    (es : List Str) (s : Str) :
    evalLoop oracle (e :: es) s =
      evalLoop oracle es (listReplace s ('{' :: (e ++ ['}'])) v) := by
  simp only [evalLoop, h]

/-- One evaluation-loop step with a failing oracle: the `except: pass`. -/
theorem evalLoop_cons_none {oracle : Str → Option Str} {e : Str} (h : oracle e = none)
    (es : List Str) (s : Str) :
    evalLoop oracle (e :: es) s = evalLoop oracle es s := by
  simp only [evalLoop, h]

/-- The evaluation loop acts independently around the sentinel-protected
block when no span text collides with the left sentinel token. -/
theorem evalLoop_around {oracle : Str → Option Str} {x : Str} (hxb : braceFree x) :
    ∀ (es : List Str) (CurA CurB : Str),
      (∀ e ∈ es, braceFree e ∧ ∀ i < e.length, ¬ occAt sentL e i) →
      evalLoop oracle es (CurA ++ (sentL ++ x ++ sentR ++ CurB)) =
        evalLoop oracle es CurA ++ (sentL ++ x ++ sentR ++ evalLoop oracle es CurB) := by
  intro es
  induction es with
  | nil => intro CurA CurB _; rfl
  | cons e es ih =>
    intro CurA CurB h
    have he := h e (List.mem_cons_self e es)
    have htail := fun q hq => h q (List.mem_cons_of_mem e hq)
    rcases horc : oracle e with _ | v
    · simp only [evalLoop_cons_none horc]
      exact ih CurA CurB htail
    · have hno : ∀ i, i < ((sentL ++ x) ++ sentR).length →
          ¬ occAt ('{' :: (e ++ ['}'])) (((sentL ++ x) ++ sentR) ++ CurB) i := by
        intro i hi hocc
        have hhead := occAt_append_head hi hocc
        rcases List.mem_append.mp hhead with hm | hm
        · rcases List.mem_append.mp hm with hm2 | hm2
          · revert hm2; decide
          · exact hxb.1 hm2
        · revert hm; decide
      have hrepl : listReplace (CurA ++ (sentL ++ x ++ sentR ++ CurB))
          ('{' :: (e ++ ['}'])) v =
          listReplace CurA ('{' :: (e ++ ['}'])) v ++
            (sentL ++ x ++ sentR ++ listReplace CurB ('{' :: (e ++ ['}'])) v) := by
        rw [listReplace_append_of_no_cross (by simp)
          (spanPat_noCross_block he.1 he.2 hxb CurA)]
        rw [listReplace_append_of_no_occ hno]
      simp only [evalLoop_cons_some horc]
      rw [hrepl]
      exact ih _ _ htail

/-- Unprotection acts independently around the sentinel block when the
evaluated surroundings do not straddle the block's sentinel boundaries. -/
theorem unprotect_around {x EA EB : Str} (_hx : x ≠ []) (_hxb : braceFree x)
    (hs1 : ∀ i < (x ++ sentR).length, ¬ occAt sentL (x ++ sentR) i)
    (hs2 : ∀ i < x.length, ¬ occAt sentR (x ++ sentR) i)
    (hEA : noCrossAt sentL EA (sentL ++ x ++ sentR ++ EB))
    (hEB : noCrossAt sentL (x ++ sentR) EB) :
    unprotectBraces (EA ++ (sentL ++ x ++ sentR ++ EB)) =
      unprotectBraces EA ++ ('{' :: (x ++ ['}'])) ++ unprotectBraces EB := by
  have e1 : listReplace (EA ++ (sentL ++ x ++ sentR ++ EB)) sentL ['{'] =
      (listReplace EA sentL ['{'] ++ ('{' :: x)) ++
        (sentR ++ listReplace EB sentL ['{']) := by
    rw [listReplace_append_of_no_cross (by decide) hEA]
    have hsh : sentL ++ x ++ sentR ++ EB = sentL ++ ((x ++ sentR) ++ EB) := by
      simp [List.append_assoc]
    have hno : ∀ i, i < (x ++ sentR).length → ¬ occAt sentL ((x ++ sentR) ++ EB) i := by
      intro i hi hocc
      have hfit := hEB i hi hocc
      exact hs1 i hi ((occAt_append_iff_of_fit hfit).mp hocc)
    rw [hsh, listReplace_head_match (by decide), listReplace_append_of_no_occ hno]
    simp [List.append_assoc]
  have hnc : noCrossAt sentR (listReplace EA sentL ['{'] ++ ('{' :: x))
      (sentR ++ listReplace EB sentL ['{']) := by
    intro i hi hocc
    by_contra hgt
    push_neg at hgt
    by_cases hiA : i ≤ (listReplace EA sentL ['{']).length
    · have hpre : sentR <+: ((listReplace EA sentL ['{'] ++ ('{' :: x)) ++
          (sentR ++ listReplace EB sentL ['{'])).drop i :=
        List.isPrefixOf_iff_prefix.mp hocc
      rw [List.drop_append_of_le_length (le_of_lt hi)] at hpre
      obtain ⟨r, hr⟩ := hpre
      obtain ⟨t, htne, hteq, ht3⟩ := append_eq_of_lt_length hr (by
        rw [List.length_drop]; omega)
      have hbad : '{' ∈ sentR := by
        rw [hteq, List.drop_append_of_le_length hiA]
        simp
      revert hbad
      decide
    · push_neg at hiA
      have hl1 : ((listReplace EA sentL ['{']) ++ ('{' :: x)).length =
          (listReplace EA sentL ['{']).length + x.length + 1 := by
        simp only [List.length_append, List.length_cons]
        omega
      have hl2 : ((listReplace EA sentL ['{']) ++ ['{']).length =
          (listReplace EA sentL ['{']).length + 1 := by
        rw [List.length_append]
        rfl
      have hige : ((listReplace EA sentL ['{']) ++ ['{']).length ≤ i := by
        rw [hl2]
        omega
      have hocc2 : occAt sentR ((x ++ sentR) ++ listReplace EB sentL ['{'])
          (i - ((listReplace EA sentL ['{']) ++ ['{']).length) := by
        show sentR.isPrefixOf _ = true
        rw [← drop_append_ge _ hige,
          show ((listReplace EA sentL ['{']) ++ ['{']) ++
              ((x ++ sentR) ++ listReplace EB sentL ['{']) =
            (listReplace EA sentL ['{'] ++ ('{' :: x)) ++
              (sentR ++ listReplace EB sentL ['{']) from by simp [List.append_assoc]]
        exact hocc
      rw [hl2] at hocc2
      have hj : i - ((listReplace EA sentL ['{']).length + 1) < x.length := by
        rw [hl1] at hi
        omega
      have hfit : (i - ((listReplace EA sentL ['{']).length + 1)) + sentR.length ≤
          (x ++ sentR).length := by
        rw [List.length_append]
        omega
      exact hs2 _ hj ((occAt_append_iff_of_fit hfit).mp hocc2)
  have hno2 : ∀ i, ¬ occAt sentR ('{' :: x) i := by
    intro i hocc
    have hpre : sentR <+: ('{' :: x).drop i := List.isPrefixOf_iff_prefix.mp hocc
    match i with
    | 0 =>
      rw [List.drop_zero] at hpre
      obtain ⟨r, hr⟩ := hpre
      have hh := congrArg List.head? hr
      rw [show (sentR ++ r).head? = some '_' from by simp [sentR],
        show ('{' :: x).head? = some '{' from rfl] at hh
      exact absurd hh (by decide)
    | j + 1 =>
      have hpre2 : sentR <+: x.drop j := hpre
      have hj : j < x.length := by
        have hlen := hpre2.length_le
        rw [List.length_drop] at hlen
        have h16 : sentR.length = 16 := by decide
        omega
      have hoccx : occAt sentR (x ++ sentR) j := by
        show sentR.isPrefixOf ((x ++ sentR).drop j) = true
        rw [List.drop_append_of_le_length (le_of_lt hj)]
        exact List.isPrefixOf_iff_prefix.mpr (hpre2.trans (List.prefix_append _ _))
      exact hs2 j hj hoccx
  show listReplace (listReplace (EA ++ (sentL ++ x ++ sentR ++ EB)) sentL ['{'])
    sentR ['}'] = _
  rw [e1, listReplace_append_of_no_cross (by decide) hnc,
    listReplace_head_match (by decide),
    listReplace_append_of_no_cross (by decide)
      (noCross_of_head_not_mem_tail (show ('{' :: x).head? = some '{' from rfl) (by decide)),
    listReplace_of_no_occ hno2]
  simp [unprotectBraces, List.append_assoc]

/-- Dropping a leading run cannot cut into an infix whose head fails the
predicate. -/
theorem infix_dropWhile {p : Char → Bool} {tgt : Str} (hne : tgt ≠ [])
    (hh : ∀ c, tgt.head? = some c → p c = false) :
    ∀ {s : Str}, tgt <:+: s → tgt <:+: s.dropWhile p := by
  intro s
  induction s with
  | nil =>
    intro h
    exact absurd (List.infix_nil.mp h) hne
  | cons c s' ih =>
    intro h
    rw [List.dropWhile_cons]
    by_cases hpc : p c = true
    · rw [if_pos hpc]
      obtain ⟨l, r, hl⟩ := h
      cases l with
      | nil =>
        obtain ⟨t0, t', rfl⟩ := List.exists_cons_of_ne_nil hne
        rw [List.nil_append, List.cons_append] at hl
        have ht0 : t0 = c := (List.cons.inj hl).1
        have hfalse := hh t0 rfl
        rw [ht0, hpc] at hfalse
        exact absurd hfalse (by simp)
      | cons d l' =>
        rw [List.cons_append, List.cons_append] at hl
        exact ih ⟨l', r, (List.cons.inj hl).2⟩
    · rw [if_neg hpc]
      exact h

/-- Python's str.strip() preserves an infix whose first and last characters
are not whitespace. -/
theorem infix_pyStrip {tgt s : Str} (h : tgt <:+: s) (hne : tgt ≠ [])
    (hh : ∀ c, tgt.head? = some c → isPyWS c = false)
    (hl : ∀ c, tgt.getLast? = some c → isPyWS c = false) :
    tgt <:+: pyStrip s := by
  have h1 : tgt <:+: s.dropWhile isPyWS := infix_dropWhile hne hh h
  have h2 : tgt.reverse <:+: (s.dropWhile isPyWS).reverse := List.reverse_infix.mpr h1
  have hner : tgt.reverse ≠ [] := by
    intro hnil
    exact hne (by simpa using congrArg List.reverse hnil)
  have hhr : ∀ c, tgt.reverse.head? = some c → isPyWS c = false := by
    intro c hc
    rw [List.head?_reverse] at hc
    exact hl c hc
  have h3 : tgt.reverse <:+: ((s.dropWhile isPyWS).reverse.dropWhile isPyWS) :=
    infix_dropWhile hner hhr h2
  rw [show ((s.dropWhile isPyWS).reverse.dropWhile isPyWS) =
    ((s.dropWhile isPyWS).reverse.dropWhile isPyWS).reverse.reverse from
    (List.reverse_reverse _).symm] at h3
  show tgt <:+: ((s.dropWhile isPyWS).reverse.dropWhile isPyWS).reverse
  exact List.reverse_infix.mp h3

/-- Claim C1, amended and generalised to every template containing the
doubled-brace sequence, written `pre ++ {{x}} ++ post`: the sequence is
rendered as the literal text `{x}` in the final output — the output is
`A ++ {x} ++ B` for the processed surroundings — for every oracle and every
parameter mapping in which no key equals `x` (the case excluded by the
counterexample).  The technical side conditions are each a real failure mode
of the source's sentinel machinery: `x` and the keys are nonempty and
brace-free; `x` does not collide with the sentinel tokens (hs1, hs2); after
substitution the text before the escape does not end in a dangling `{` that
would pair with the escape's first brace (hpre); no `{...}` expression span
swallows the protected block (hspan); and the sentinel occurrences of the
evaluated surroundings do not straddle the block's boundaries (hEA, hEB). -/
theorem c1_escaped_braces (oracle : Str → Option Str) (x pre post : Str) (vd : Dict)
    (hx : x ≠ []) (hxb : braceFree x)
    (hvd : ∀ kv ∈ vd, kv.1 ≠ [] ∧ braceFree kv.1 ∧ kv.1 ≠ x)
    (hs1 : ∀ i < (x ++ sentR).length, ¬ occAt sentL (x ++ sentR) i)
    (hs2 : ∀ i < x.length, ¬ occAt sentR (x ++ sentR) i)
    (hpre : noCrossAt ['{', '{'] (substKeys pre vd) (dblBrace x ++ substKeys post vd))
    (hspan : ∀ e ∈ findSpans (protectBraces (substKeys (pre ++ dblBrace x ++ post) vd)),
      ∀ i < e.length, ¬ occAt sentL e i)
    (hEA : noCrossAt sentL (evalStage oracle vd (pre ++ dblBrace x ++ post) pre)
      (sentL ++ x ++ sentR ++ evalStage oracle vd (pre ++ dblBrace x ++ post) post))
    (hEB : noCrossAt sentL (x ++ sentR)
      (evalStage oracle vd (pre ++ dblBrace x ++ post) post)) :
    ∃ A B, evalZippered oracle (pre ++ dblBrace x ++ post) vd =
      A ++ ('{' :: (x ++ ['}'])) ++ B := by
  have hsub := substKeys_around hxb vd pre post hvd
  have hprot := protect_around (A := substKeys pre vd) (B := substKeys post vd) hx hxb hpre
  have hprot2 : protectBraces (substKeys (pre ++ dblBrace x ++ post) vd) =
      protectBraces (substKeys pre vd) ++
        (sentL ++ x ++ sentR ++ protectBraces (substKeys post vd)) := by
    rw [hsub, hprot]
    simp [List.append_assoc]
  have hspans : ∀ e ∈ findSpans (protectBraces (substKeys (pre ++ dblBrace x ++ post) vd)),
      braceFree e ∧ ∀ i < e.length, ¬ occAt sentL e i := by
    intro e he
    exact ⟨findSpans_braceFree he, hspan e he⟩
  have hevalgen : ∀ es, (∀ e ∈ es, braceFree e ∧ ∀ i < e.length, ¬ occAt sentL e i) →
      evalLoop oracle es (protectBraces (substKeys (pre ++ dblBrace x ++ post) vd)) =
        evalLoop oracle es (protectBraces (substKeys pre vd)) ++
          (sentL ++ x ++ sentR ++
            evalLoop oracle es (protectBraces (substKeys post vd))) := by
    intro es hes
    rw [hprot2]
    exact evalLoop_around hxb es _ _ hes
  have heval : evalLoop oracle
      (findSpans (protectBraces (substKeys (pre ++ dblBrace x ++ post) vd)))
      (protectBraces (substKeys (pre ++ dblBrace x ++ post) vd)) =
      evalStage oracle vd (pre ++ dblBrace x ++ post) pre ++
        (sentL ++ x ++ sentR ++ evalStage oracle vd (pre ++ dblBrace x ++ post) post) := by
    have hgen := hevalgen
      (findSpans (protectBraces (substKeys (pre ++ dblBrace x ++ post) vd))) hspans
    exact hgen
  have hunp := unprotect_around hx hxb hs1 hs2 hEA hEB
  simp only [evalZippered]
  rw [heval, hunp]
  have htin : ('{' :: (x ++ ['}'])) <:+:
      (unprotectBraces (evalStage oracle vd (pre ++ dblBrace x ++ post) pre) ++
        ('{' :: (x ++ ['}'])) ++
        unprotectBraces (evalStage oracle vd (pre ++ dblBrace x ++ post) post)) :=
    ⟨unprotectBraces (evalStage oracle vd (pre ++ dblBrace x ++ post) pre),
     unprotectBraces (evalStage oracle vd (pre ++ dblBrace x ++ post) post), rfl⟩
  obtain ⟨A, B, hAB⟩ := infix_pyStrip htin (by simp)
    (by
      intro c hc
      rw [show ('{' :: (x ++ ['}'])).head? = some '{' from rfl] at hc
      rw [← Option.some.inj hc]
      decide)
    (by
      intro c hc
      rw [show ('{' :: (x ++ ['}'])) = ('{' :: x) ++ ['}'] from by simp,
        List.getLast?_concat] at hc
      rw [← Option.some.inj hc]
      decide)
  exact ⟨A, B, hAB.symm⟩

/-- Witness for the amended C1 at the spec's own scenario: the template
`echo {{literal}} {x}` with mapping `x = 5` renders `{literal}` literally
while `{x}` substitutes. -/
theorem c1_witness :
    ∃ A B, evalZippered (fun e => if e = "5".data then some ("5".data) else none)
        ("echo ".data ++ dblBrace ("literal".data) ++ " {x}".data)
        [("x".data, "5".data)] =
      A ++ ('{' :: ("literal".data ++ ['}'])) ++ B :=
  c1_escaped_braces (fun e => if e = "5".data then some ("5".data) else none)
    ("literal".data) ("echo ".data) (" {x}".data) [("x".data, "5".data)]
    (by decide) (by decide) (by decide) (by decide) (by decide) (by decide) (by decide)
    (by decide) (by decide)

/-- The modelled `str.replace` preserves an infix that no occurrence of the
pattern can overlap: HC forbids an occurrence at the same position, HA the
target starting strictly inside the pattern, HB the pattern starting strictly
inside the target. -/
theorem listReplace_keeps_infix {pat tgt rep : Str} (hpat : pat ≠ []) (htgt : tgt ≠ [])
    (HC : ∀ w : Str, pat <+: w → tgt <+: w → False)
    (HA : ∀ k, 0 < k → k < pat.length → ∀ w : Str, ¬ tgt <+: (pat.drop k ++ w))
    (HB : ∀ k, 0 < k → k < tgt.length → ∀ w : Str, ¬ pat <+: (tgt.drop k ++ w)) :
    ∀ s, tgt <:+: s → tgt <:+: listReplace s pat rep := by
  suffices H : ∀ (n : Nat) (s : Str), s.length ≤ n → tgt <:+: s →
      tgt <:+: listReplace s pat rep by
    intro s hs
    exact H s.length s le_rfl hs
  intro n
  induction n with
  | zero =>
    intro s hn hs
    have h0 : s = [] := List.eq_nil_of_length_eq_zero (by omega)
    subst h0
    exact absurd (List.infix_nil.mp hs) htgt
  | succ n ih =>
    intro s hn hs
    cases s with
    | nil => exact absurd (List.infix_nil.mp hs) htgt
    | cons c s' =>
      have hpl : 1 ≤ pat.length := List.length_pos.mpr hpat
      rw [listReplace_cons]
      by_cases hm : pat.isPrefixOf (c :: s')
      · rw [if_pos ⟨hpat, hm⟩]
        obtain ⟨l, r, hl⟩ := hs
        have hpm : pat <+: (c :: s') := List.isPrefixOf_iff_prefix.mp hm
        obtain ⟨pr, hpr⟩ := hpm
        by_cases hl0 : l = []
        · exfalso
          subst hl0
          rw [List.nil_append] at hl
          exact HC (c :: s') ⟨pr, hpr⟩ ⟨r, hl⟩
        · by_cases hlp : l.length < pat.length
          · exfalso
            rw [List.append_assoc] at hl
            have hdrop : (c :: s').drop l.length = tgt ++ r := by
              rw [← hl]
              exact List.drop_left l (tgt ++ r)
            have hdrop2 : (c :: s').drop l.length = pat.drop l.length ++ pr := by
              rw [← hpr]
              exact List.drop_append_of_le_length (le_of_lt hlp)
            exact HA l.length (List.length_pos.mpr hl0) hlp pr
              ⟨r, by rw [← hdrop, hdrop2]⟩
          · push_neg at hlp
            have htin : tgt <:+: (c :: s').drop pat.length := by
              refine ⟨l.drop pat.length, r, ?_⟩
              rw [← hl, List.drop_append_of_le_length (le_trans hlp (by simp)),
                List.drop_append_of_le_length hlp]
            obtain ⟨u, v, huv⟩ := ih ((c :: s').drop pat.length) (by
              rw [List.length_drop, List.length_cons]
              rw [List.length_cons] at hn
              omega) htin
            exact ⟨rep ++ u, v, by rw [← huv]; simp [List.append_assoc]⟩
      · rw [if_neg (by rintro ⟨_, hp⟩; exact hm hp)]
        obtain ⟨l, r, hl⟩ := hs
        cases l with
        | nil =>
          rw [List.nil_append] at hl
          have hno : ∀ i, i < tgt.length → ¬ occAt pat (tgt ++ r) i := by
            intro i hi hocc
            have hpre : pat <+: (tgt ++ r).drop i := List.isPrefixOf_iff_prefix.mp hocc
            match i, hi with
            | 0, _ =>
              rw [List.drop_zero, hl] at hpre
              exact hm (List.isPrefixOf_iff_prefix.mpr hpre)
            | j + 1, hj =>
              rw [List.drop_append_of_le_length (le_of_lt hj)] at hpre
              exact HB (j + 1) (by omega) hj r hpre
          have heq1 : listReplace (tgt ++ r) pat rep = tgt ++ listReplace r pat rep :=
            listReplace_append_of_no_occ hno
          rw [hl] at heq1
          rw [listReplace_cons, if_neg (by rintro ⟨_, hp⟩; exact hm hp)] at heq1
          rw [heq1]
          exact ⟨[], listReplace r pat rep, by simp⟩
        | cons d l' =>
          have hl2 := hl
          rw [List.cons_append, List.cons_append] at hl2
          have htl : (l' ++ tgt) ++ r = s' := (List.cons.inj hl2).2
          obtain ⟨u, v, huv⟩ := ih s' (by rw [List.length_cons] at hn; omega) ⟨l', r, htl⟩
          exact ⟨c :: u, v, by rw [← huv]; simp⟩

/-- A span pattern `{y}` cannot begin strictly inside another span pattern
`{z}` whose interior is brace-free. -/
theorem spanPat_not_inside {y z : Str} (hzb : braceFree z) :
    ∀ k, 0 < k → k < ('{' :: (z ++ ['}'])).length →
    ∀ w : Str, ¬ ('{' :: (y ++ ['}'])) <+: (('{' :: (z ++ ['}'])).drop k ++ w) := by
  intro k hk0 hkl w hpre
  obtain ⟨r, hr⟩ := hpre
  have hpl : ('{' :: (z ++ ['}'])).length = z.length + 2 := by simp
  rw [hpl] at hkl
  have hdr : ('{' :: (z ++ ['}'])).drop k = (z ++ ['}']).drop (k - 1) := by
    obtain ⟨m, hm⟩ : ∃ m, k = m + 1 := ⟨k - 1, by omega⟩
    rw [hm, List.drop_succ_cons, Nat.add_sub_cancel]
  have hne2 : ('{' :: (z ++ ['}'])).drop k ≠ [] := by
    intro hnil
    have hh := congrArg List.length hnil
    rw [List.length_drop, hpl] at hh
    simp at hh
    omega
  obtain ⟨c0, t', ht⟩ := List.exists_cons_of_ne_nil hne2
  rw [ht] at hr
  simp only [List.cons_append] at hr
  have hc0 : c0 = '{' := ((List.cons.inj hr).1).symm
  have hmem : '{' ∈ z ++ ['}'] := by
    have hm1 : c0 ∈ ('{' :: (z ++ ['}'])).drop k := by rw [ht]; simp
    rw [hdr] at hm1
    have hm2 := List.drop_subset _ _ hm1
    rw [← hc0]
    exact hm2
  rcases List.mem_append.mp hmem with hm | hm
  · exact hzb.1 hm
  · simp at hm

/-- A successful substitution of a different brace-free span `{z}` preserves
a `{e}` occurrence: the two bracketed spans can never overlap. -/
theorem spanPat_infix_preserved {e z v s : Str} (hb : braceFree e) (hzb : braceFree z)
    (hne : e ≠ z) (h : ('{' :: (e ++ ['}'])) <:+: s) :
    ('{' :: (e ++ ['}'])) <:+: listReplace s ('{' :: (z ++ ['}'])) v := by
  apply listReplace_keeps_infix (by simp) (by simp) ?hc ?ha ?hb2 s h
  case hc =>
    intro w h1 h2
    obtain ⟨r1, hr1⟩ := h1
    obtain ⟨r2, hr2⟩ := h2
    rw [← hr2] at hr1
    simp only [List.cons_append] at hr1
    have h3 := (List.cons.inj hr1).2
    rw [List.append_assoc, List.append_assoc, List.singleton_append,
      List.singleton_append] at h3
    exact hne (braceCut hb.2 hzb.2 h3.symm)
  case ha => exact spanPat_not_inside hzb
  case hb2 => exact spanPat_not_inside hb

/-- A sentinel replacement preserves a `{e}` occurrence when the brace-free
sentinel cannot overlap it: it contains no brace and does not occur inside
`e` itself. -/
theorem sent_keeps_infix {pat e v s : Str} (hpne : pat ≠ [])
    (hpb : '{' ∉ pat ∧ '}' ∉ pat) (_hb : braceFree e)
    (hsent : ∀ i < e.length, ¬ occAt pat e i)
    (h : ('{' :: (e ++ ['}'])) <:+: s) :
    ('{' :: (e ++ ['}'])) <:+: listReplace s pat v := by
  apply listReplace_keeps_infix hpne (by simp) ?hc ?ha ?hb2 s h
  case hc =>
    intro w h1 h2
    obtain ⟨r1, hr1⟩ := h1
    obtain ⟨r2, hr2⟩ := h2
    rw [← hr2] at hr1
    obtain ⟨p0, p', rfl⟩ := List.exists_cons_of_ne_nil hpne
    simp only [List.cons_append] at hr1
    have hp0 : p0 = '{' := (List.cons.inj hr1).1
    exact hpb.1 (hp0 ▸ List.mem_cons_self p0 p')
  case ha =>
    intro k hk0 hkl w hpre
    obtain ⟨r, hr⟩ := hpre
    have hne2 : pat.drop k ≠ [] := by
      intro hnil
      have hh := congrArg List.length hnil
      rw [List.length_drop, List.length_nil] at hh
      omega
    obtain ⟨c0, t', ht⟩ := List.exists_cons_of_ne_nil hne2
    rw [ht] at hr
    simp only [List.cons_append] at hr
    have hc0 : c0 = '{' := ((List.cons.inj hr).1).symm
    apply hpb.1
    have hm1 : c0 ∈ pat.drop k := by rw [ht]; simp
    rw [← hc0]
    exact List.drop_subset _ _ hm1
  case hb2 =>
    intro k hk0 hkl w hpre
    have hpl : ('{' :: (e ++ ['}'])).length = e.length + 2 := by simp
    rw [hpl] at hkl
    have hdr : ('{' :: (e ++ ['}'])).drop k = (e ++ ['}']).drop (k - 1) := by
      obtain ⟨m, hm⟩ : ∃ m, k = m + 1 := ⟨k - 1, by omega⟩
      rw [hm, List.drop_succ_cons, Nat.add_sub_cancel]
    rw [hdr] at hpre
    have hk1 : k - 1 ≤ e.length := by omega
    rw [List.drop_append_of_le_length hk1, List.append_assoc] at hpre
    by_cases hc2 : pat.length ≤ (e.drop (k - 1)).length
    · have hp2 : pat <+: e.drop (k - 1) := prefix_of_append_of_le hpre hc2
      have hklt : k - 1 < e.length := by
        rw [List.length_drop] at hc2
        have hpos := List.length_pos.mpr hpne
        omega
      exact hsent (k - 1) hklt (List.isPrefixOf_iff_prefix.mpr hp2)
    · push_neg at hc2
      obtain ⟨r, hr⟩ := hpre
      obtain ⟨t, htne, hteq, ht3⟩ := append_eq_of_lt_length hr hc2
      obtain ⟨c0, t', rfl⟩ := List.exists_cons_of_ne_nil htne
      have hc0 : c0 = '}' := by
        have hh := congrArg List.head? ht3
        simpa using hh
      apply hpb.2
      rw [← hc0, hteq]
      simp

/-- The evaluation loop never destroys a failing span's `{e}` text: every
substituted span is a different brace-free span and cannot overlap it. -/
theorem evalLoop_keeps_failed {oracle : Str → Option Str} {e : Str}
    (hb : braceFree e) (hfail : oracle e = none) :
    ∀ (es : List Str) (s : Str), (∀ q ∈ es, braceFree q) →
      ('{' :: (e ++ ['}'])) <:+: s → ('{' :: (e ++ ['}'])) <:+: evalLoop oracle es s := by
  intro es
  induction es with
  | nil => intro s _ h; exact h
  | cons z es ih =>
    intro s hes h
    rcases horc : oracle z with _ | v
    · rw [evalLoop_cons_none horc]
      exact ih s (fun q hq => hes q (List.mem_cons_of_mem z hq)) h
    · have hne : e ≠ z := by
        intro heq
        rw [← heq, hfail] at horc
        exact Option.noConfusion horc
      rw [evalLoop_cons_some horc]
      exact ih _ (fun q hq => hes q (List.mem_cons_of_mem z hq))
        (spanPat_infix_preserved hb (hes z (List.mem_cons_self z es)) hne h)

/-- Claim C8: evaluation failures are swallowed locally.  For any span `{e}`
of the protected command whose evaluation fails — even in a mixed template
where other spans evaluate successfully and are substituted — the
`except Exception: pass` of source lines 204-205 leaves that span untouched:
its literal `{e}` text survives the other substitutions, the unprotection
and the final strip, and so remains in the expansion's final output.
Totality of `evalZippered` (no exception propagates) is the type of the
model: the `none` branch of the oracle is the swallowed exception.  The side
conditions keep `e` clear of the sentinel tokens, which the unprotection
step would otherwise rewrite. -/
theorem c8_eval_failures_swallowed (oracle : Str → Option Str) (cmd : Str) (vd : Dict)
    (e : Str) (he : e ∈ findSpans (protectBraces (substKeys cmd vd)))
    (hfail : oracle e = none)
    (hsl : ∀ i < e.length, ¬ occAt sentL e i)
    (hsr : ∀ i < e.length, ¬ occAt sentR e i) :
    ('{' :: (e ++ ['}'])) <:+: evalZippered oracle cmd vd := by
  have hb : braceFree e := findSpans_braceFree he
  have h0 : ('{' :: (e ++ ['}'])) <:+: protectBraces (substKeys cmd vd) :=
    findSpans_mem_infix he
  have h1 := evalLoop_keeps_failed hb hfail
    (findSpans (protectBraces (substKeys cmd vd)))
    (protectBraces (substKeys cmd vd))
    (fun q hq => findSpans_braceFree hq) h0
  have h2 : ('{' :: (e ++ ['}'])) <:+:
      unprotectBraces (evalLoop oracle (findSpans (protectBraces (substKeys cmd vd)))
        (protectBraces (substKeys cmd vd))) := by
    show ('{' :: (e ++ ['}'])) <:+:
      listReplace (listReplace (evalLoop oracle
        (findSpans (protectBraces (substKeys cmd vd)))
        (protectBraces (substKeys cmd vd))) sentL ['{']) sentR ['}']
    apply sent_keeps_infix (by decide) (by decide) hb hsr
    apply sent_keeps_infix (by decide) (by decide) hb hsl
    exact h1
  simp only [evalZippered]
  apply infix_pyStrip h2 (by simp)
  · intro c hc
    rw [show ('{' :: (e ++ ['}'])).head? = some '{' from rfl] at hc
    rw [← Option.some.inj hc]
    decide
  · intro c hc
    rw [show ('{' :: (e ++ ['}'])) = ('{' :: e) ++ ['}'] from by simp,
      List.getLast?_concat] at hc
    rw [← Option.some.inj hc]
    decide

/-- Witness for C8 on a mixed command: `{2+2}` evaluates and is substituted
while `{nope}` fails and survives in the final output. -/
theorem c8_witness :
    ('{' :: ("nope".data ++ ['}'])) <:+:
      evalZippered (fun e => if e = "2+2".data then some ("4".data) else none)
        ("echo {2+2} {nope}".data) [] :=
  c8_eval_failures_swallowed (fun e => if e = "2+2".data then some ("4".data) else none)
    ("echo {2+2} {nope}".data) [] ("nope".data) (by decide) (by decide) (by decide)
    (by decide)

end PZ
